import Mathlib



/-!
Verification of the vouch-graph core of `libra-tool`: the depth-bounded
graph-construction walk (`fetchVouchGraph` in `src/utils/vouching.ts`), the
trust-scoring engine (`calculateAddressScores` in `src/utils/scoring.ts`),
the root-set fetch (`fetchRootAddresses`) and the composition performed by
the `vouch-graph` command.

Modelling choices:
* An address is a `String` (the code compares normalized address strings).
* The remote VoucherLookup service is a finite table `Lookup` assigning to an
  address either `some vouchers` (a well-formed response listing the addresses
  that vouch for it) or `none` (a failed lookup: the code catches the error,
  logs a warning and treats the address as having no vouchers).  An address
  absent from the table also behaves as a failed lookup.
* JS `Set` objects are insertion-ordered duplicate-free lists; `Map` objects
  are insertion-ordered association lists (`msGet` / `msSet`).
* `Math.floor(ROOT_SCORE / Math.pow(2, d))` is `ROOT_SCORE / 2 ^ d` on `Nat`:
  `200000 / 2^d` is exactly representable as an IEEE double for every relevant
  `d`, so the JS floating-point computation agrees with natural division.
* The unbounded `while` loop of the scoring BFS is embedded as a fuel-indexed
  step function `bfsRun`; `calculateAddressScores` runs it with an explicitly
  computed fuel (`bfsFuel`) that is proved sufficient (`bfsRun` never returns
  `none` on it), which is the termination argument for the source loop.
-/

/-- A voucher-lookup table: for each address, `some l` is a successful
response (`l` = the addresses vouching for it), `none` a failed lookup. -/
def Lookup : Type := List (String × Option (List String))

/-- Response of the VoucherLookup service for `a` (first matching table
entry; a missing entry behaves like a failure). -/
def lookupFn : Lookup → String → Option (List String)
  | [], _ => none
  | (k, r) :: rest, a => if k = a then r else lookupFn rest a

/-- Fixed score of a root-of-trust address (`const ROOT_SCORE = 200000`). -/
def ROOT_SCORE : Nat := 200000

/-- State threaded through the graph walk of `fetchVouchGraph`:
the global `visited` set, the accumulated edge list (an edge `(v, a)` means
`v` vouches for `a`), the warnings logged for failed lookups, and the trace
of addresses whose voucher set was fetched (one entry per fetch event). -/
structure GState where
  visited : List String
  edges : List (String × String)
  warnings : List String
  fetched : List String
deriving DecidableEq, Repr

/-- The empty state the `vouch-graph` command starts the walk with. -/
def initGState : GState := ⟨[], [], [], []⟩

/-- `fetchVouchGraph` from `src/utils/vouching.ts`, with the remaining
recursion depth `fuel = maxDepth - currentDepth` (the source guard
`currentDepth >= maxDepth` becomes `fuel = 0`).  Order of operations is the
source's: visited check, depth check, mark visited, fetch (recording the
fetch event and, on failure, a warning), then for each voucher: push the
edge, and either mark a root voucher visited or recurse into it. -/
def fetchVouchGraph (t : Lookup) (roots : List String) (fuel : Nat)
    (address : String) (st : GState) : GState :=
  if st.visited.contains address then st
  else
    match fuel with
    | 0 => st
    | fuel' + 1 =>
      let st1 : GState := { st with visited := st.visited ++ [address],
                                    fetched := st.fetched ++ [address] }
      match lookupFn t address with
      | none => { st1 with warnings := st1.warnings ++ [address] }
      | some vouchers =>
        vouchers.foldl (fun acc v =>
          let acc1 : GState := { acc with edges := acc.edges ++ [(v, address)] }
          if roots.contains v then
            if acc1.visited.contains v then acc1
            else { acc1 with visited := acc1.visited ++ [v] }
          else fetchVouchGraph t roots fuel' v acc1) st1

/-- The inner voucher loop of `fetchVouchGraph`, named so that properties of
a single expansion step can be stated: for each voucher `v` of `address`,
push the edge `(v, address)`, then either mark a root voucher visited
(without recursing) or recurse into `v` with the remaining depth `fuel`. -/
def processVouchers (t : Lookup) (roots : List String) (fuel : Nat)
    (address : String) (vouchers : List String) (st : GState) : GState :=
  vouchers.foldl (fun acc v =>
    let acc1 : GState := { acc with edges := acc.edges ++ [(v, address)] }
    if roots.contains v then
      if acc1.visited.contains v then acc1
      else { acc1 with visited := acc1.visited ++ [v] }
    else fetchVouchGraph t roots fuel v acc1) st

/-- JS `Map.get`: value of the first (unique) entry with the given key. -/
def msGet : List (String × Nat) → String → Option Nat
  | [], _ => none
  | (k, v) :: rest, a => if k = a then some v else msGet rest a

/-- JS `Map.set`: update the existing entry in place, else append. -/
def msSet : List (String × Nat) → String → Nat → List (String × Nat)
  | [], a, v => [(a, v)]
  | (k, w) :: rest, a, v =>
    if k = a then (a, v) :: rest else (k, w) :: msSet rest a v

/-- One entry of the scoring BFS queue: the current address, its depth
(hops walked backward from the target) and the branch-local path set. -/
structure QEntry where
  address : String
  depth : Nat
  path : List String
deriving DecidableEq, Repr

/-- Length of a lookup response (a failed lookup yields no vouchers). -/
def respLen : Option (List String) → Nat
  | none => 0
  | some l => l.length

/-- Largest voucher list the table can ever answer with. -/
def maxResp : Lookup → Nat
  | [] => 0
  | (_, r) :: rest => max (respLen r) (maxResp rest)

/-- Weight function for the termination measure of the scoring BFS:
`wF L k` bounds the number of dequeue steps generated by a queue entry that
can still absorb `k` fresh addresses, when every voucher list has length
at most `L`. -/
def wF (L : Nat) : Nat → Nat
  | 0 => 1
  | k + 1 => 1 + L * wF L k

/-- Number of addresses of `pool` not yet on the branch path `p`. -/
def slack (pool : List String) (p : List String) : Nat :=
  (pool.filter (fun x => !(p.contains x))).length

/-- Weight of one BFS queue entry. -/
def entryW (pool : List String) (L : Nat) (e : QEntry) : Nat :=
  wF L (slack pool e.path)

/-- Weight of a whole BFS queue: an upper bound on the number of dequeue
steps until the queue empties. -/
def qWeight (pool : List String) (L : Nat) (q : List QEntry) : Nat :=
  (q.map (entryW pool L)).sum

/-- The `while (queue.length > 0)` loop of `calculateAddressScores`, one
dequeue per unit of fuel; `none` means the fuel ran out with a non-empty
queue.  Guards mirror the source: depth prune (`depth > 0 && currentDepth
>= depth`), root contribution `floor(ROOT_SCORE / 2^depth)` added to the
target's map entry, otherwise fetch the received vouches of the current
address and enqueue every voucher that is in the graph and not on the
branch path. -/
def bfsRun (t : Lookup) (roots pool : List String) (sd : Nat)
    (target : String) : Nat → List QEntry → List (String × Nat) →
    Option (List (String × Nat))
  | _, [], m => some m
  | 0, _ :: _, _ => none
  | fuel + 1, e :: q, m =>
    if 0 < sd ∧ sd ≤ e.depth then bfsRun t roots pool sd target fuel q m
    else if roots.contains e.address then
      bfsRun t roots pool sd target fuel q
        (msSet m target ((msGet m target).getD 0 + ROOT_SCORE / 2 ^ e.depth))
    else
      match lookupFn t e.address with
      | none => bfsRun t roots pool sd target fuel q m
      | some vs =>
        bfsRun t roots pool sd target fuel
          (q ++ vs.filterMap (fun v =>
            if pool.contains v && !(e.path.contains v) then
              some ⟨v, e.depth + 1, e.path ++ [v]⟩
            else none)) m

/-- Initial queue of the backward search for one target:
`{address: targetAddr, depth: 0, path: new Set([targetAddr])}`. -/
def startEntry (a : String) : QEntry := ⟨a, 0, [a]⟩

/-- The fuel `calculateAddressScores` hands to each target's BFS; proved
sufficient below (the loop always empties its queue within this bound). -/
def bfsFuel (t : Lookup) (pool : List String) (a : String) : Nat :=
  qWeight pool (maxResp t) [startEntry a]

/-- `allAddresses.forEach(addr => scores.set(addr, 0))`. -/
def initScores (pool : List String) : List (String × Nat) :=
  pool.foldl (fun m a => msSet m a 0) []

/-- `rootAddresses.forEach(... if (allAddresses.has(rootAddr))
scores.set(rootAddr, ROOT_SCORE))`. -/
def setRootScores (roots pool : List String) (m : List (String × Nat)) :
    List (String × Nat) :=
  roots.foldl (fun m r => if pool.contains r then msSet m r ROOT_SCORE else m) m

/-- `calculateAddressScores` from `src/utils/scoring.ts`: initialize every
address of the graph to 0, give roots the fixed `ROOT_SCORE`, then for every
non-root address run the backward BFS.  `none` would signal a BFS that ran
out of fuel; this never happens (proved below). -/
def calculateAddressScoresAux (t : Lookup) (roots pool : List String)
    (sd : Nat) : Option (List (String × Nat)) :=
  pool.foldl (fun om a =>
    om.bind (fun m =>
      if roots.contains a then some m
      else bfsRun t roots pool sd a (bfsFuel t pool a) [startEntry a] m))
    (some (setRootScores roots pool (initScores pool)))

/-- The ScoreMap returned by `calculateAddressScores`. -/
def calculateAddressScores (t : Lookup) (roots pool : List String)
    (sd : Nat) : List (String × Nat) :=
  (calculateAddressScoresAux t roots pool sd).getD []

/-! ### The per-branch contribution sum

`branchSum t roots pool sd a d p` is the total score contribution of all
branches the scoring BFS generates from the queue state `(a, d, p)`: 0 if
the state is pruned by the depth bound, `⌊ROOT_SCORE / 2^d⌋` if `a` is a
root (roots are terminal), otherwise the sum over the vouchers of `a` that
are in the graph and not yet on the path.  Terminates because each step
consumes one fresh address of `pool`. -/
def branchSum (t : Lookup) (roots pool : List String) (sd : Nat)
    (a : String) (d : Nat) (p : List String) : Nat :=
  if 0 < sd ∧ sd ≤ d then 0
  else if roots.contains a then ROOT_SCORE / 2 ^ d
  else
    match lookupFn t a with
    | none => 0
    | some vs =>
      (((vs.filter (fun v => pool.contains v && !(p.contains v))).attach).map
        (fun x => branchSum t roots pool sd x.1 (d + 1) (p ++ [x.1]))).sum
termination_by slack pool p
decreasing_by
  have hc := List.of_mem_filter x.2
  simp only [Bool.and_eq_true, Bool.not_eq_true'] at hc
  have hv : x.1 ∈ pool := by simpa using hc.1
  have hnp : x.1 ∉ p := by simpa using hc.2
  unfold slack
  have heq : (fun y => !((p ++ [x.1]).contains y))
      = (fun y => (!(decide (y = x.1))) && (!(p.contains y))) := by
    funext y
    simp [Bool.and_comm]
  rw [heq, ← List.filter_filter]
  apply List.length_filter_lt_length_iff_exists.mpr
  exact ⟨x.1, List.mem_filter.mpr ⟨hv, by simpa using hnp⟩, by simp⟩

/-! ### The BFS loop computes the branch sums -/

/-- Total branch-sum of a whole queue. -/
def qSum (t : Lookup) (roots pool : List String) (sd : Nat)
    (q : List QEntry) : Nat :=
  (q.map (fun e => branchSum t roots pool sd e.address e.depth e.path)).sum

/-! ### Simple root-reaching paths, as the spec describes them -/

/-- One backward step: `b` is among the vouchers the service lists for `a`. -/
def isStep (t : Lookup) (a b : String) : Bool :=
  match lookupFn t a with
  | some l => l.contains b
  | none => false

/-- `isChain t q`: consecutive elements of `q` are backward voucher steps. -/
def isChain (t : Lookup) : List String → Bool
  | [] => true
  | [_] => true
  | a :: b :: rest => isStep t a b && isChain t (b :: rest)

/-- All duplicate-free continuation sequences of length at most `n` drawn
from `pool` and avoiding `used`: the universe from which root-reaching
simple paths are selected. -/
def extChoices (pool : List String) (used : List String) : Nat → List (List String)
  | 0 => [[]]
  | n + 1 =>
    [] :: (pool.filter (fun v => !(used.contains v))).flatMap
      (fun v => (extChoices pool (used ++ [v]) n).map (fun e => v :: e))

/-- `AdmExt t roots pool sd a d ext` holds when `ext` extends the search
state `(a, depth d)` to a root along admitted vouch steps: every node of
`ext` lies in the graph's address set, consecutive steps follow received
vouches, the final node is the (only) root on the way, and the root is
reached strictly inside the depth bound (`sd = 0` means unlimited). -/
def AdmExt (t : Lookup) (roots pool : List String) (sd : Nat) (a : String)
    (d : Nat) (ext : List String) : Prop :=
  (∀ x ∈ ext, x ∈ pool) ∧ isChain t (a :: ext) = true ∧
  (a :: ext).getLast (List.cons_ne_nil a ext) ∈ roots ∧
  (∀ x ∈ (a :: ext).dropLast, x ∉ roots) ∧
  (sd = 0 ∨ d + ext.length < sd)

instance instDecAdmExt (t : Lookup) (roots pool : List String) (sd : Nat)
    (a : String) (d : Nat) (ext : List String) :
    Decidable (AdmExt t roots pool sd a d ext) := by
  unfold AdmExt
  infer_instance

/-- The simple paths the spec talks about: `IsRootPath t roots pool sd tgt q`
says `q` is a simple path (no repeated node) that starts at the target,
walks backward along received-vouch steps through addresses of the graph,
ends at the first root it meets, and reaches it within the depth bound. -/
def IsRootPath (t : Lookup) (roots pool : List String) (sd : Nat)
    (tgt : String) (q : List String) : Prop :=
  q.head? = some tgt ∧ q.Nodup ∧ (∀ x ∈ q.tail, x ∈ pool) ∧
  isChain t q = true ∧
  (∃ r, q.getLast? = some r ∧ r ∈ roots) ∧
  (∀ x ∈ q.dropLast, x ∉ roots) ∧
  (sd = 0 ∨ q.length - 1 < sd)

instance instDecIsRootPath (t : Lookup) (roots pool : List String) (sd : Nat)
    (tgt : String) (q : List String) :
    Decidable (IsRootPath t roots pool sd tgt q) := by
  unfold IsRootPath
  have : Decidable (∃ r, q.getLast? = some r ∧ r ∈ roots) := by
    cases hq : q.getLast? with
    | none => exact isFalse (by simp)
    | some r =>
      by_cases hr : r ∈ roots
      · exact isTrue ⟨r, rfl, hr⟩
      · exact isFalse (by rintro ⟨r', hr', hm⟩; cases hr'; exact hr hm)
  infer_instance

/-- All admitted simple root-reaching paths from target `tgt`, listed
without repetition. -/
def rootPaths (t : Lookup) (roots pool : List String) (sd : Nat)
    (tgt : String) : List (List String) :=
  ((extChoices pool [tgt] pool.length).map (fun ext => tgt :: ext)).filter
    (fun q => decide (IsRootPath t roots pool sd tgt q))

/-- The score the spec's path-contribution law predicts for a target:
`⌊ROOT_SCORE / 2^k⌋` summed over all distinct admitted simple paths, where
`k` is the path's hop count. -/
def pathScoreSum (t : Lookup) (roots pool : List String) (sd : Nat)
    (tgt : String) : Nat :=
  ((rootPaths t roots pool sd tgt).map
    (fun q => ROOT_SCORE / 2 ^ (q.length - 1))).sum

/-- Per-response duplicate-freeness (spec §3: the service never lists the
same voucher twice in one response — an external data-quality assumption). -/
def respNodup : Option (List String) → Prop
  | none => True
  | some l => l.Nodup

instance instDecRespNodup (r : Option (List String)) : Decidable (respNodup r) := by
  cases r <;> simp [respNodup] <;> infer_instance

/-- The whole lookup table satisfies the data-quality assumption. -/
def tableNodup : Lookup → Prop
  | [] => True
  | (_, r) :: rest => respNodup r ∧ tableNodup rest

instance instDecTableNodup (t : Lookup) : Decidable (tableNodup t) := by
  induction t with
  | nil => exact isTrue trivial
  | cons p rest ih =>
    obtain ⟨k, r⟩ := p
    unfold tableNodup
    exact instDecidableAnd

/-- Sum of the admitted continuations of the state `(a, d)` with path `p`,
drawn from the continuation universe of size bound `n`. -/
def extSum (t : Lookup) (roots pool : List String) (sd : Nat) (n : Nat)
    (a : String) (d : Nat) (p : List String) : Nat :=
  (((extChoices pool p n).filter
      (fun e => decide (AdmExt t roots pool sd a d e))).map
    (fun e => ROOT_SCORE / 2 ^ (d + e.length))).sum

/-! ### Structural properties of the graph walk -/

/-- `st'` extends `st`: the walk only ever appends to its accumulators. -/
def Extends (st st' : GState) : Prop :=
  (∃ e, st'.edges = st.edges ++ e) ∧ (∃ v, st'.visited = st.visited ++ v)
  ∧ (∃ w, st'.warnings = st.warnings ++ w)
  ∧ (∃ f, st'.fetched = st.fetched ++ f)

/-- Invariant of the walk: the fetch trace has no duplicates and only
contains visited addresses. -/
def FetchInv (st : GState) : Prop :=
  st.fetched.Nodup ∧ ∀ x ∈ st.fetched, x ∈ st.visited

/-! ### Root provider and the vouch-graph command -/

/-- Shape of a JSON value returned by `client.viewJson`. -/
inductive JVal where
  | jarr (elems : List JVal)
  | jstr (s : String)
  | jnum (n : Nat)
  | jother

/-- JS `String(x)` for the values the code stringifies. -/
def jToString : JVal → String
  | .jstr s => s
  | .jnum n => toString n
  | .jarr _ => ""
  | .jother => ""

/-- `fetchRootAddresses` from `src/utils/vouching.ts`: a transport error
(the promise rejecting) is re-thrown; a well-shaped response (an array
whose first element is an array) yields the stringified addresses; any
other shape is logged and yields the empty list. -/
def fetchRootAddresses : Except Unit JVal → Except Unit (List String)
  | .error e => .error e
  | .ok v =>
    match v with
    | .jarr (first :: _) =>
      match first with
      | .jarr l => .ok (l.map jToString)
      | _ => .ok []
    | _ => .ok []

/-- Whether a root-registry response has the shape the code can read. -/
def rootsShapeOk : JVal → Bool
  | .jarr (.jarr _ :: _) => true
  | _ => false

/-- First-occurrence deduplication (JS `Set` built by repeated `add`). -/
def dedupFirstAux : List String → List String → List String
  | _, [] => []
  | seen, a :: rest =>
    if seen.contains a then dedupFirstAux seen rest
    else a :: dedupFirstAux (seen ++ [a]) rest

/-- The `allAddresses` set the command builds: the start address followed by
the endpoints of every collected edge, first occurrences only. -/
def collectAddresses (start : String) (edges : List (String × String)) :
    List String :=
  dedupFirstAux [] (start :: edges.flatMap (fun e => [e.1, e.2]))

/-- The `vouch-graph` command pipeline (rendering and file output elided):
fetch the root set — aborting if that fails — then build the graph from the
start address, collect the discovered addresses and compute their scores. -/
def vouchGraphRun (rootResp : Except Unit JVal) (t : Lookup) (addr : String)
    (vd sd : Nat) : Except Unit (GState × List (String × Nat)) :=
  match fetchRootAddresses rootResp with
  | .error e => .error e
  | .ok rootList =>
    let st := fetchVouchGraph t rootList vd addr initGState
    let allAddrs := collectAddresses addr st.edges
    .ok (st, calculateAddressScores t rootList allAddrs sd)

/-- The claim predicate of C6 as frozen: like `IsRootPath` but admitting
paths of length *at most* the depth bound. -/
def IsRootPathLe (t : Lookup) (roots pool : List String) (sd : Nat)
    (tgt : String) (q : List String) : Prop :=
  q.head? = some tgt ∧ q.Nodup ∧ (∀ x ∈ q.tail, x ∈ pool) ∧
  isChain t q = true ∧
  (∃ r, q.getLast? = some r ∧ r ∈ roots) ∧
  (∀ x ∈ q.dropLast, x ∉ roots) ∧
  (sd = 0 ∨ q.length - 1 ≤ sd)

instance instDecIsRootPathLe (t : Lookup) (roots pool : List String)
    (sd : Nat) (tgt : String) (q : List String) :
    Decidable (IsRootPathLe t roots pool sd tgt q) := by
  unfold IsRootPathLe
  have : Decidable (∃ r, q.getLast? = some r ∧ r ∈ roots) := by
    cases hq : q.getLast? with
    | none => exact isFalse (by simp)
    | some r =>
      by_cases hr : r ∈ roots
      · exact isTrue ⟨r, rfl, hr⟩
      · exact isFalse (by rintro ⟨r', hr', hm⟩; cases hr'; exact hr hm)
  infer_instance

/-- Scenario-B lookup table: `A` vouches for `B`, `B` vouches for `C`. -/
def tChain : Lookup := [("A", some []), ("B", some ["A"]), ("C", some ["B"])]

/-- Two distinct backward paths from `T` to the root `R`:
directly (`R` vouches for `T`) and through `B`. -/
def tDiamond : Lookup :=
  [("T", some ["R", "B"]), ("B", some ["R"]), ("R", some [])]

/-- A single backward edge from `T` to the root `R`. -/
def tEdge : Lookup := [("T", some ["R"]), ("R", some [])]

/-- An 18-hop backward chain `a → b → … → r → s` ending at the root `s`. -/
def tLong : Lookup :=
  [("a", some ["b"]), ("b", some ["c"]), ("c", some ["d"]), ("d", some ["e"]),
   ("e", some ["f"]), ("f", some ["g"]), ("g", some ["h"]), ("h", some ["i"]),
   ("i", some ["j"]), ("j", some ["k"]), ("k", some ["l"]), ("l", some ["m"]),
   ("m", some ["n"]), ("n", some ["o"]), ("o", some ["p"]), ("p", some ["q"]),
   ("q", some ["r"]), ("r", some ["s"]), ("s", some [])]

/-- The address set of `tLong`. -/
def poolLong : List String :=
  ["a", "b", "c", "d", "e", "f", "g", "h", "i", "j", "k", "l", "m", "n",
   "o", "p", "q", "r", "s"]

/-- The 19-node simple path of `tLong` from `a` to the root `s`. -/
def pathLong : List String := poolLong

/-- Extra concrete tables used by witnesses. -/
def tFail : Lookup := [("C", some ["B"])]

def tRootStart : Lookup := [("A", some ["B"]), ("B", some [])]

/-! ### Basic facts about the association-map and weight helpers -/

lemma msGet_msSet_self (m : List (String × Nat)) (k : String) (v : Nat) :
    msGet (msSet m k v) k = some v := by
  induction m with
  | nil => simp [msSet, msGet]
  | cons p rest ih =>
    obtain ⟨k', w⟩ := p
    by_cases h : k' = k
    · simp [msSet, msGet, h]
    · simp [msSet, msGet, h, ih]

lemma msGet_msSet_ne (m : List (String × Nat)) (k k' : String) (v : Nat)
    (h : k ≠ k') : msGet (msSet m k v) k' = msGet m k' := by
  induction m with
  | nil => simp [msSet, msGet, h]
  | cons p rest ih =>
    obtain ⟨k₀, w⟩ := p
    by_cases h0 : k₀ = k
    · subst h0
      simp [msSet, msGet, h]
    · simp only [msSet, if_neg h0]
      by_cases h1 : k₀ = k'
      · simp [msGet, h1]
      · simp [msGet, h1, ih]

lemma msSet_msSet (m : List (String × Nat)) (k : String) (v w : Nat) :
    msSet (msSet m k v) k w = msSet m k w := by
  induction m with
  | nil => simp [msSet]
  | cons p rest ih =>
    obtain ⟨k₀, u⟩ := p
    by_cases h : k₀ = k
    · simp [msSet, h]
    · simp [msSet, h, ih]

lemma msSet_self_of_get (m : List (String × Nat)) (k : String) (v : Nat)
    (h : msGet m k = some v) : msSet m k v = m := by
  induction m with
  | nil => simp [msGet] at h
  | cons p rest ih =>
    obtain ⟨k₀, u⟩ := p
    by_cases h0 : k₀ = k
    · subst h0
      simp [msGet] at h
      simp [msSet, h]
    · simp [msGet, h0] at h
      simp [msSet, h0, ih h]

lemma wF_pos (L k : Nat) : 0 < wF L k := by
  cases k <;> simp [wF]

lemma wF_zero (k : Nat) : wF 0 k = 1 := by
  induction k <;> simp [wF, *]

lemma wF_le_succ (L k : Nat) : wF L k ≤ wF L (k + 1) := by
  cases L with
  | zero => simp [wF_zero]
  | succ L' =>
    have h1 : wF (L' + 1) k ≤ (L' + 1) * wF (L' + 1) k :=
      Nat.le_mul_of_pos_left _ (Nat.succ_pos L')
    calc wF (L' + 1) k ≤ (L' + 1) * wF (L' + 1) k := h1
      _ ≤ 1 + (L' + 1) * wF (L' + 1) k := by omega
      _ = wF (L' + 1) (k + 1) := by simp [wF]

lemma wF_mono (L : Nat) {k k' : Nat} (h : k ≤ k') : wF L k ≤ wF L k' := by
  induction k' with
  | zero => simp_all
  | succ n ih =>
    rcases Nat.lt_or_ge k (n + 1) with h1 | h1
    · exact le_trans (ih (Nat.lt_succ_iff.mp h1)) (wF_le_succ L n)
    · have : k = n + 1 := by omega
      simp [this]

lemma slack_lt (pool p : List String) (v : String) (hv : v ∈ pool)
    (hnp : v ∉ p) : slack pool (p ++ [v]) < slack pool p := by
  unfold slack
  have heq : (fun x => !((p ++ [v]).contains x))
      = (fun x => (!(decide (x = v))) && (!(p.contains x))) := by
    funext x
    simp [Bool.and_comm]
  rw [heq, ← List.filter_filter]
  apply List.length_filter_lt_length_iff_exists.mpr
  exact ⟨v, List.mem_filter.mpr ⟨hv, by simp [hnp]⟩, by simp⟩

lemma lookupFn_len_le (t : Lookup) (a : String) (l : List String)
    (h : lookupFn t a = some l) : l.length ≤ maxResp t := by
  induction t with
  | nil => simp [lookupFn] at h
  | cons p rest ih =>
    obtain ⟨k, r⟩ := p
    by_cases h0 : k = a
    · simp [lookupFn, h0] at h
      subst h
      simp [maxResp, respLen]
    · simp [lookupFn, h0] at h
      calc l.length ≤ maxResp rest := ih h
        _ ≤ maxResp ((k, r) :: rest) := by simp [maxResp]

lemma branchSum_pruned (t : Lookup) (roots pool : List String) (sd : Nat)
    (a : String) (d : Nat) (p : List String) (h : 0 < sd ∧ sd ≤ d) :
    branchSum t roots pool sd a d p = 0 := by
  rw [branchSum]
  simp [h]

lemma branchSum_root (t : Lookup) (roots pool : List String) (sd : Nat)
    (a : String) (d : Nat) (p : List String) (h : ¬(0 < sd ∧ sd ≤ d))
    (hr : roots.contains a = true) :
    branchSum t roots pool sd a d p = ROOT_SCORE / 2 ^ d := by
  rw [branchSum, if_neg h, hr]
  simp

lemma branchSum_fail (t : Lookup) (roots pool : List String) (sd : Nat)
    (a : String) (d : Nat) (p : List String) (h : ¬(0 < sd ∧ sd ≤ d))
    (hr : roots.contains a = false) (hl : lookupFn t a = none) :
    branchSum t roots pool sd a d p = 0 := by
  rw [branchSum, if_neg h, hr]
  simp [hl]

lemma branchSum_expand (t : Lookup) (roots pool : List String) (sd : Nat)
    (a : String) (d : Nat) (p : List String) (vs : List String)
    (h : ¬(0 < sd ∧ sd ≤ d)) (hr : roots.contains a = false)
    (hl : lookupFn t a = some vs) :
    branchSum t roots pool sd a d p
      = ((vs.filter (fun v => pool.contains v && !(p.contains v))).map
          (fun v => branchSum t roots pool sd v (d + 1) (p ++ [v]))).sum := by
  rw [branchSum, if_neg h, hr]
  simp only [Bool.false_eq_true, if_false, hl]
  exact congrArg List.sum
    (List.attach_map_val _ (fun v => branchSum t roots pool sd v (d + 1) (p ++ [v])))

lemma qWeight_cons (pool : List String) (L : Nat) (e : QEntry)
    (q : List QEntry) :
    qWeight pool L (e :: q) = entryW pool L e + qWeight pool L q := by
  simp [qWeight]

lemma qWeight_append (pool : List String) (L : Nat) (q q' : List QEntry) :
    qWeight pool L (q ++ q') = qWeight pool L q + qWeight pool L q' := by
  simp [qWeight]

lemma qSum_cons (t : Lookup) (roots pool : List String) (sd : Nat)
    (e : QEntry) (q : List QEntry) :
    qSum t roots pool sd (e :: q)
      = branchSum t roots pool sd e.address e.depth e.path
        + qSum t roots pool sd q := by
  simp [qSum]

lemma qSum_append (t : Lookup) (roots pool : List String) (sd : Nat)
    (q q' : List QEntry) :
    qSum t roots pool sd (q ++ q')
      = qSum t roots pool sd q + qSum t roots pool sd q' := by
  simp [qSum]

lemma filterMap_if {β : Type} (vs : List String) (c : String → Bool)
    (g : String → β) :
    vs.filterMap (fun v => if c v then some (g v) else none)
      = (vs.filter c).map g := by
  induction vs with
  | nil => simp
  | cons v vs ih =>
    cases h : c v with
    | true => simp [h, ih]
    | false => simp [h, ih]

/-- The queue entries enqueued when expanding `(a, d, p)` with voucher
list `vs`. -/
lemma children_eq_map (pool p : List String) (d : Nat) (vs : List String) :
    vs.filterMap (fun v =>
        if pool.contains v && !(p.contains v) then
          some (⟨v, d + 1, p ++ [v]⟩ : QEntry)
        else none)
      = (vs.filter (fun v => pool.contains v && !(p.contains v))).map
          (fun v => ⟨v, d + 1, p ++ [v]⟩) :=
  filterMap_if vs _ _

lemma qWeight_children_lt (pool p : List String) (L : Nat) (d : Nat)
    (vs : List String) (hlen : vs.length ≤ L) :
    qWeight pool L
        ((vs.filter (fun v => pool.contains v && !(p.contains v))).map
          (fun v => ⟨v, d + 1, p ++ [v]⟩))
      < wF L (slack pool p) := by
  set flt := vs.filter (fun v => pool.contains v && !(p.contains v)) with hflt
  rcases flt.eq_nil_or_concat with hnil | ⟨_, _, _⟩
  · rw [hnil]
    simpa [qWeight] using wF_pos L (slack pool p)
  · -- the filtered list is non-empty, so some address of `pool` is off-path
    have hne : flt ≠ [] := by
      rename_i l b h
      simp [h]
    obtain ⟨v0, hv0⟩ := List.exists_mem_of_ne_nil flt hne
    have hv0c := List.of_mem_filter (hflt ▸ hv0)
    simp only [Bool.and_eq_true, Bool.not_eq_true'] at hv0c
    have hv0p : v0 ∈ pool := by simpa using hv0c.1
    have hv0np : v0 ∉ p := by simpa using hv0c.2
    have hslack1 : 1 ≤ slack pool p := by
      have : v0 ∈ pool.filter (fun x => !(p.contains x)) :=
        List.mem_filter.mpr ⟨hv0p, by simpa using hv0np⟩
      have := List.length_pos_of_mem this
      simpa [slack] using this
    -- each child weight is at most wF L (slack pool p - 1)
    have hbound : ∀ w ∈ (flt.map (fun v => (⟨v, d + 1, p ++ [v]⟩ : QEntry))).map
        (entryW pool L), w ≤ wF L (slack pool p - 1) := by
      intro w hw
      simp only [List.map_map, List.mem_map, Function.comp] at hw
      obtain ⟨v, hv, rfl⟩ := hw
      have hvc := List.of_mem_filter (hflt ▸ hv)
      simp only [Bool.and_eq_true, Bool.not_eq_true'] at hvc
      have h1 : slack pool (p ++ [v]) < slack pool p :=
        slack_lt pool p v (by simpa using hvc.1) (by simpa using hvc.2)
      simp only [entryW]
      exact wF_mono L (by omega)
    have hsum : qWeight pool L (flt.map (fun v => ⟨v, d + 1, p ++ [v]⟩))
        ≤ flt.length * wF L (slack pool p - 1) := by
      have := List.sum_le_card_nsmul
        ((flt.map (fun v => (⟨v, d + 1, p ++ [v]⟩ : QEntry))).map (entryW pool L))
        (wF L (slack pool p - 1)) hbound
      simpa [qWeight, smul_eq_mul] using this
    have hlen2 : flt.length ≤ L :=
      le_trans (by simpa [hflt] using List.length_filter_le _ vs) hlen
    have hmul : flt.length * wF L (slack pool p - 1)
        ≤ L * wF L (slack pool p - 1) :=
      Nat.mul_le_mul_right _ hlen2
    have hw : wF L (slack pool p) = 1 + L * wF L (slack pool p - 1) := by
      have : slack pool p = (slack pool p - 1) + 1 := by omega
      rw [this]
      simp [wF]
    omega

lemma bfsRun_pruned (t : Lookup) (roots pool : List String) (sd : Nat)
    (target : String) (fuel : Nat) (a : String) (d : Nat) (p : List String)
    (q : List QEntry) (m : List (String × Nat)) (h : 0 < sd ∧ sd ≤ d) :
    bfsRun t roots pool sd target (fuel + 1) (⟨a, d, p⟩ :: q) m
      = bfsRun t roots pool sd target fuel q m := by
  rw [bfsRun, if_pos h]

lemma bfsRun_root (t : Lookup) (roots pool : List String) (sd : Nat)
    (target : String) (fuel : Nat) (a : String) (d : Nat) (p : List String)
    (q : List QEntry) (m : List (String × Nat)) (h : ¬(0 < sd ∧ sd ≤ d))
    (hr : roots.contains a = true) :
    bfsRun t roots pool sd target (fuel + 1) (⟨a, d, p⟩ :: q) m
      = bfsRun t roots pool sd target fuel q
          (msSet m target ((msGet m target).getD 0 + ROOT_SCORE / 2 ^ d)) := by
  rw [bfsRun, if_neg h, if_pos hr]

lemma bfsRun_fail (t : Lookup) (roots pool : List String) (sd : Nat)
    (target : String) (fuel : Nat) (a : String) (d : Nat) (p : List String)
    (q : List QEntry) (m : List (String × Nat)) (h : ¬(0 < sd ∧ sd ≤ d))
    (hr : roots.contains a = false) (hl : lookupFn t a = none) :
    bfsRun t roots pool sd target (fuel + 1) (⟨a, d, p⟩ :: q) m
      = bfsRun t roots pool sd target fuel q m := by
  rw [bfsRun, if_neg h, if_neg (by simpa using hr), hl]

lemma bfsRun_expandStep (t : Lookup) (roots pool : List String) (sd : Nat)
    (target : String) (fuel : Nat) (a : String) (d : Nat) (p : List String)
    (q : List QEntry) (m : List (String × Nat)) (vs : List String)
    (h : ¬(0 < sd ∧ sd ≤ d))
    (hr : roots.contains a = false) (hl : lookupFn t a = some vs) :
    bfsRun t roots pool sd target (fuel + 1) (⟨a, d, p⟩ :: q) m
      = bfsRun t roots pool sd target fuel
          (q ++ vs.filterMap (fun v =>
            if pool.contains v && !(p.contains v) then
              some ⟨v, d + 1, p ++ [v]⟩
            else none)) m := by
  rw [bfsRun, if_neg h, if_neg (by simpa using hr), hl]

/-- Main BFS lemma: given enough fuel, one target's backward search returns,
and the only change it makes to the score map is to add the total branch-sum
of its queue to the target's entry. -/
lemma bfsRun_main (t : Lookup) (roots pool : List String) (sd : Nat)
    (target : String) :
    ∀ (fuel : Nat) (q : List QEntry) (m : List (String × Nat)) (s : Nat),
      qWeight pool (maxResp t) q ≤ fuel → msGet m target = some s →
      bfsRun t roots pool sd target fuel q m
        = some (msSet m target (s + qSum t roots pool sd q)) := by
  intro fuel
  induction fuel with
  | zero =>
    intro q m s hw hg
    cases q with
    | nil =>
      simp only [bfsRun, qSum, List.map_nil, List.sum_nil, Nat.add_zero]
      rw [msSet_self_of_get m target s hg]
    | cons e q' =>
      exfalso
      have h1 := wF_pos (maxResp t) (slack pool e.path)
      have := qWeight_cons pool (maxResp t) e q'
      simp only [entryW] at this
      omega
  | succ fuel ih =>
    intro q m s hw hg
    cases q with
    | nil =>
      simp only [bfsRun, qSum, List.map_nil, List.sum_nil, Nat.add_zero]
      rw [msSet_self_of_get m target s hg]
    | cons e q' =>
      obtain ⟨a, d, p⟩ := e
      have hwc : entryW pool (maxResp t) ⟨a, d, p⟩
          + qWeight pool (maxResp t) q' ≤ fuel + 1 := by
        rw [← qWeight_cons]; exact hw
      have hW1 : 1 ≤ entryW pool (maxResp t) ⟨a, d, p⟩ := wF_pos _ _
      have hwq' : qWeight pool (maxResp t) q' ≤ fuel := by omega
      by_cases h1 : 0 < sd ∧ sd ≤ d
      · rw [bfsRun_pruned t roots pool sd target fuel a d p q' m h1]
        rw [ih q' m s hwq' hg, qSum_cons]
        rw [branchSum_pruned t roots pool sd a d p h1]
        simp
      · cases hcr : roots.contains a with
        | true =>
          rw [bfsRun_root t roots pool sd target fuel a d p q' m h1 hcr]
          rw [hg]
          have hg' : msGet (msSet m target (s + ROOT_SCORE / 2 ^ d)) target
              = some (s + ROOT_SCORE / 2 ^ d) := msGet_msSet_self m target _
          rw [show (some s).getD 0 = s from rfl]
          rw [ih q' _ _ hwq' hg', msSet_msSet, qSum_cons]
          rw [branchSum_root t roots pool sd a d p h1 hcr]
          ring_nf
        | false =>
          cases hl : lookupFn t a with
          | none =>
            rw [bfsRun_fail t roots pool sd target fuel a d p q' m h1 hcr hl]
            rw [ih q' m s hwq' hg, qSum_cons]
            rw [branchSum_fail t roots pool sd a d p h1 hcr hl]
            simp
          | some vs =>
            rw [bfsRun_expandStep t roots pool sd target fuel a d p q' m vs
              h1 hcr hl]
            rw [children_eq_map]
            have hchild : qWeight pool (maxResp t)
                ((vs.filter (fun v => pool.contains v && !(p.contains v))).map
                  (fun v => ⟨v, d + 1, p ++ [v]⟩))
                < wF (maxResp t) (slack pool p) :=
              qWeight_children_lt pool p (maxResp t) d vs
                (lookupFn_len_le t a vs hl)
            have hwnew : qWeight pool (maxResp t)
                (q' ++ (vs.filter (fun v => pool.contains v && !(p.contains v))).map
                  (fun v => ⟨v, d + 1, p ++ [v]⟩)) ≤ fuel := by
              rw [qWeight_append]
              have he : entryW pool (maxResp t) ⟨a, d, p⟩
                  = wF (maxResp t) (slack pool p) := rfl
              omega
            rw [ih _ m s hwnew hg, qSum_append, qSum_cons]
            have hbse : branchSum t roots pool sd a d p
                = qSum t roots pool sd
                    ((vs.filter (fun v => pool.contains v && !(p.contains v))).map
                      (fun v => ⟨v, d + 1, p ++ [v]⟩)) := by
              rw [branchSum_expand t roots pool sd a d p vs h1 hcr hl]
              simp only [qSum, List.map_map]
              rfl
            rw [hbse]
            ring_nf

/-! ### Characterizing the full score map -/

lemma initScores_get (pool : List String) (x : String) :
    msGet (initScores pool) x = if x ∈ pool then some 0 else none := by
  have gen : ∀ (l : List String) (m0 : List (String × Nat)),
      msGet (l.foldl (fun m a => msSet m a 0) m0) x
        = if x ∈ l then some 0 else msGet m0 x := by
    intro l
    induction l with
    | nil => intro m0; simp
    | cons b l ih =>
      intro m0
      rw [List.foldl_cons, ih]
      by_cases hbl : x ∈ l
      · simp [hbl]
      · by_cases hbx : b = x
        · subst hbx
          simp [hbl, msGet_msSet_self]
        · have : (x ∈ b :: l) = (x ∈ l) := by
            simp [List.mem_cons, hbl, Ne.symm hbx]
          simp only [this, hbl, if_false]
          rw [msGet_msSet_ne m0 b x 0 hbx]
  have := gen pool []
  simpa [initScores, msGet] using this

lemma setRootScores_get (roots pool : List String) (m : List (String × Nat))
    (x : String) :
    msGet (setRootScores roots pool m) x
      = if x ∈ roots ∧ x ∈ pool then some ROOT_SCORE else msGet m x := by
  induction roots generalizing m with
  | nil => simp [setRootScores]
  | cons r roots ih =>
    have hstep : setRootScores (r :: roots) pool m
        = setRootScores roots pool
            (if pool.contains r then msSet m r ROOT_SCORE else m) := by
      simp [setRootScores]
    rw [hstep, ih]
    by_cases h1 : x ∈ roots ∧ x ∈ pool
    · simp [h1]
    · simp only [h1, if_false]
      by_cases hrx : r = x
      · subst hrx
        by_cases hp : r ∈ pool
        · simp [hp, msGet_msSet_self]
        · rw [if_neg (by simpa using hp)]
          simp [hp]
      · have hmem : (x ∈ r :: roots ∧ x ∈ pool) ↔ (x ∈ roots ∧ x ∈ pool) := by
          constructor
          · rintro ⟨hx, hp⟩
            rcases List.mem_cons.mp hx with h | h
            · exact absurd h.symm hrx
            · exact ⟨h, hp⟩
          · rintro ⟨hx, hp⟩
            exact ⟨List.mem_cons_of_mem _ hx, hp⟩
        simp only [hmem, h1, if_false]
        by_cases hp : r ∈ pool
        · rw [if_pos (by simpa using hp)]
          exact msGet_msSet_ne m r x ROOT_SCORE hrx
        · rw [if_neg (by simpa using hp)]

lemma qSum_start (t : Lookup) (roots pool : List String) (sd : Nat)
    (a : String) :
    qSum t roots pool sd [startEntry a] = branchSum t roots pool sd a 0 [a] := by
  simp [qSum, startEntry]

/-- The per-target loop of `calculateAddressScores`: each non-root target's
entry gains exactly the branch-sum of its own backward search, every other
entry is untouched, and the loop never runs out of fuel. -/
lemma foldTargets (t : Lookup) (roots pool : List String) (sd : Nat) :
    ∀ (l : List String) (m : List (String × Nat)),
      (∀ x ∈ l, x ∉ roots → (msGet m x).isSome) →
      ∃ mf,
        l.foldl (fun om a =>
          om.bind (fun m =>
            if roots.contains a then some m
            else bfsRun t roots pool sd a (bfsFuel t pool a) [startEntry a] m))
          (some m) = some mf ∧
        (∀ x, (x ∉ l ∨ x ∈ roots) → msGet mf x = msGet m x) ∧
        (l.Nodup → ∀ x ∈ l, x ∉ roots →
          msGet mf x
            = some ((msGet m x).getD 0 + branchSum t roots pool sd x 0 [x])) := by
  have hbind : ∀ (m : List (String × Nat)) (b : String),
      ((some m).bind (fun m =>
        if roots.contains b then some m
        else bfsRun t roots pool sd b (bfsFuel t pool b) [startEntry b] m))
      = if roots.contains b then some m
        else bfsRun t roots pool sd b (bfsFuel t pool b) [startEntry b] m :=
    fun _ _ => rfl
  intro l
  induction l with
  | nil =>
    intro m _
    exact ⟨m, rfl, fun x _ => rfl, fun _ x hx => absurd hx (List.not_mem_nil x)⟩
  | cons a l ih =>
    intro m hsome
    cases hra : roots.contains a with
    | true =>
      have hstep : (a :: l).foldl (fun om b =>
            om.bind (fun m =>
              if roots.contains b then some m
              else bfsRun t roots pool sd b (bfsFuel t pool b) [startEntry b] m))
            (some m)
          = l.foldl (fun om b =>
            om.bind (fun m =>
              if roots.contains b then some m
              else bfsRun t roots pool sd b (bfsFuel t pool b) [startEntry b] m))
            (some m) := by
        rw [List.foldl_cons, hbind, if_pos hra]
      obtain ⟨mf, hmf, hother, hval⟩ := ih m
        (fun x hx hnx => hsome x (List.mem_cons_of_mem a hx) hnx)
      refine ⟨mf, hstep ▸ hmf, ?_, ?_⟩
      · intro x hx
        apply hother
        rcases hx with hx | hx
        · exact Or.inl (fun h => hx (List.mem_cons_of_mem a h))
        · exact Or.inr hx
      · intro hnd x hx hnx
        have hxa : x ≠ a := by
          rintro rfl
          exact hnx (by simpa using hra)
        have hxl : x ∈ l := by
          rcases List.mem_cons.mp hx with h | h
          · exact absurd h hxa
          · exact h
        exact hval (List.Nodup.of_cons hnd) x hxl hnx
    | false =>
      have hnra : a ∉ roots := by simpa using hra
      obtain ⟨s, hs⟩ := Option.isSome_iff_exists.mp
        (hsome a (List.mem_cons_self a l) hnra)
      have hrun : bfsRun t roots pool sd a (bfsFuel t pool a) [startEntry a] m
          = some (msSet m a (s + branchSum t roots pool sd a 0 [a])) := by
        rw [bfsRun_main t roots pool sd a (bfsFuel t pool a) [startEntry a] m s
          (le_refl _) hs, qSum_start]
      have hstep : (a :: l).foldl (fun om b =>
            om.bind (fun m =>
              if roots.contains b then some m
              else bfsRun t roots pool sd b (bfsFuel t pool b) [startEntry b] m))
            (some m)
          = l.foldl (fun om b =>
            om.bind (fun m =>
              if roots.contains b then some m
              else bfsRun t roots pool sd b (bfsFuel t pool b) [startEntry b] m))
            (some (msSet m a (s + branchSum t roots pool sd a 0 [a]))) := by
        rw [List.foldl_cons, hbind, if_neg (by simpa using hra), hrun]
      set m1 := msSet m a (s + branchSum t roots pool sd a 0 [a]) with hm1
      have hsome1 : ∀ x ∈ l, x ∉ roots → (msGet m1 x).isSome := by
        intro x hx hnx
        by_cases hxa : x = a
        · subst hxa
          rw [hm1, msGet_msSet_self]
          rfl
        · rw [hm1, msGet_msSet_ne m a x _ (fun h => hxa h.symm)]
          exact hsome x (List.mem_cons_of_mem a hx) hnx
      obtain ⟨mf, hmf, hother, hval⟩ := ih m1 hsome1
      refine ⟨mf, hstep ▸ hmf, ?_, ?_⟩
      · intro x hx
        have hxa : x ≠ a := by
          intro hax
          subst hax
          rcases hx with hx | hx
          · exact hx (List.mem_cons_self x l)
          · exact hnra hx
        have h1 : msGet mf x = msGet m1 x := by
          apply hother
          rcases hx with hx | hx
          · exact Or.inl (fun h => hx (List.mem_cons_of_mem a h))
          · exact Or.inr hx
        rw [h1, hm1, msGet_msSet_ne m a x _ (fun h => hxa h.symm)]
      · intro hnd x hx hnx
        by_cases hxa : x = a
        · subst hxa
          have hxl : x ∉ l := (List.nodup_cons.mp hnd).1
          have h1 : msGet mf x = msGet m1 x := hother x (Or.inl hxl)
          rw [h1, hm1, msGet_msSet_self, hs]
          rfl
        · have hxl : x ∈ l := by
            rcases List.mem_cons.mp hx with h | h
            · exact absurd h hxa
            · exact h
          have h2 := hval (List.Nodup.of_cons hnd) x hxl hnx
          rw [h2, hm1, msGet_msSet_ne m a x _ (fun h => hxa h.symm)]

lemma scoresInit_get (roots pool : List String) (x : String) :
    msGet (setRootScores roots pool (initScores pool)) x
      = if x ∈ pool then
          (if x ∈ roots then some ROOT_SCORE else some 0)
        else none := by
  rw [setRootScores_get, initScores_get]
  by_cases hp : x ∈ pool
  · by_cases hr : x ∈ roots
    · simp [hp, hr]
    · simp [hp, hr]
  · simp [hp]

/-- `calculateAddressScores` never runs out of fuel: the embedded BFS loops
all terminate. -/
lemma scoresAux_isSome (t : Lookup) (roots pool : List String) (sd : Nat) :
    (calculateAddressScoresAux t roots pool sd).isSome := by
  obtain ⟨mf, hmf, -, -⟩ := foldTargets t roots pool sd pool
    (setRootScores roots pool (initScores pool))
    (fun x hx _ => by rw [scoresInit_get]; simp [hx]; split <;> rfl)
  have : calculateAddressScoresAux t roots pool sd = some mf := hmf
  rw [this]
  rfl

/-- Full characterization of the returned ScoreMap: exactly the addresses of
the graph have entries; roots score `ROOT_SCORE`; every other address gets
the branch-sum of its backward search. -/
lemma scores_char (t : Lookup) (roots pool : List String) (sd : Nat)
    (hnd : pool.Nodup) (x : String) :
    msGet (calculateAddressScores t roots pool sd) x
      = if x ∈ pool then
          (if x ∈ roots then some ROOT_SCORE
           else some (branchSum t roots pool sd x 0 [x]))
        else none := by
  obtain ⟨mf, hmf, hother, hval⟩ := foldTargets t roots pool sd pool
    (setRootScores roots pool (initScores pool))
    (fun x hx _ => by rw [scoresInit_get]; simp [hx]; split <;> rfl)
  have haux : calculateAddressScoresAux t roots pool sd = some mf := hmf
  have hcs : calculateAddressScores t roots pool sd = mf := by
    rw [calculateAddressScores, haux]
    rfl
  rw [hcs]
  by_cases hp : x ∈ pool
  · by_cases hr : x ∈ roots
    · rw [hother x (Or.inr hr), scoresInit_get]
      simp [hp, hr]
    · rw [hval hnd x hp hr, scoresInit_get]
      simp [hp, hr]
  · rw [hother x (Or.inl hp), scoresInit_get]
    simp [hp]

lemma lookupFn_nodup (t : Lookup) (a : String) (l : List String)
    (ht : tableNodup t) (h : lookupFn t a = some l) : l.Nodup := by
  induction t with
  | nil => simp [lookupFn] at h
  | cons p rest ih =>
    obtain ⟨k, r⟩ := p
    obtain ⟨h1, h2⟩ := ht
    by_cases h0 : k = a
    · simp [lookupFn, h0] at h
      subst h
      exact h1
    · simp [lookupFn, h0] at h
      exact ih h2 h

lemma sum_flatMap {α : Type} (l : List α) (g : α → List Nat) :
    (l.flatMap g).sum = (l.map (fun a => (g a).sum)).sum := by
  induction l with
  | nil => simp
  | cons a l ih => simp [List.flatMap_cons, ih]

lemma sum_if_filter {α : Type} (l : List α) (c : α → Bool) (f : α → Nat) :
    (l.map (fun v => if c v then f v else 0)).sum = ((l.filter c).map f).sum := by
  induction l with
  | nil => simp
  | cons v l ih =>
    cases h : c v with
    | true => simp [List.filter_cons, h, ih]
    | false => simp [List.filter_cons, h, ih]

lemma sum_reindex (A B : List String) (f : String → Nat) (hA : A.Nodup)
    (hB : B.Nodup) (hmem : ∀ x, x ∈ A ↔ x ∈ B) :
    (A.map f).sum = (B.map f).sum := by
  have hperm : A.Perm B := by
    apply List.perm_of_nodup_nodup_toFinset_eq hA hB
    ext x
    simp [hmem x]
  exact (hperm.map f).sum_eq

lemma extSum_zero (t : Lookup) (roots pool : List String) (sd : Nat)
    (a : String) (d : Nat) (p : List String) :
    extSum t roots pool sd 0 a d p
      = if AdmExt t roots pool sd a d [] then ROOT_SCORE / 2 ^ d else 0 := by
  unfold extSum extChoices
  by_cases h : AdmExt t roots pool sd a d []
  · simp [List.filter_cons, h]
  · simp [List.filter_cons, h]

lemma extSum_succ (t : Lookup) (roots pool : List String) (sd : Nat)
    (a : String) (d : Nat) (p : List String) (n : Nat) :
    extSum t roots pool sd (n + 1) a d p
      = (if AdmExt t roots pool sd a d [] then ROOT_SCORE / 2 ^ d else 0)
        + ((pool.filter (fun v => !(p.contains v))).map
            (fun v => ((((extChoices pool (p ++ [v]) n).map (fun e => v :: e)).filter
              (fun e => decide (AdmExt t roots pool sd a d e))).map
                (fun e => ROOT_SCORE / 2 ^ (d + e.length))).sum)).sum := by
  unfold extSum
  rw [show extChoices pool p (n + 1)
      = [] :: (pool.filter (fun v => !(p.contains v))).flatMap
          (fun v => (extChoices pool (p ++ [v]) n).map (fun e => v :: e)) from rfl]
  rw [List.filter_cons, List.filter_flatMap]
  by_cases h : AdmExt t roots pool sd a d []
  · rw [if_pos (by simpa using h)]
    rw [List.map_cons, List.sum_cons, List.map_flatMap, sum_flatMap]
    simp [h]
  · rw [if_neg (by simpa using h)]
    rw [List.map_flatMap, sum_flatMap]
    simp [h]

lemma admExt_nil (t : Lookup) (roots pool : List String) (sd : Nat)
    (a : String) (d : Nat) :
    AdmExt t roots pool sd a d [] ↔ (a ∈ roots ∧ (sd = 0 ∨ d < sd)) := by
  unfold AdmExt
  simp [isChain]

lemma admExt_cons (t : Lookup) (roots pool : List String) (sd : Nat)
    (a v : String) (d : Nat) (e : List String)
    (ha : a ∉ roots) (hv : v ∈ pool) :
    AdmExt t roots pool sd a d (v :: e)
      ↔ (isStep t a v = true ∧ AdmExt t roots pool sd v (d + 1) e) := by
  unfold AdmExt
  constructor
  · rintro ⟨h1, h2, h3, h4, h5⟩
    have h2' : (isStep t a v && isChain t (v :: e)) = true := h2
    rw [Bool.and_eq_true] at h2'
    refine ⟨h2'.1, fun x hx => h1 x (List.mem_cons_of_mem v hx), h2'.2, ?_, ?_, ?_⟩
    · rw [List.getLast_cons (List.cons_ne_nil v e)] at h3
      exact h3
    · intro x hx
      apply h4
      rw [List.dropLast_cons₂]
      exact List.mem_cons_of_mem a hx
    · rcases h5 with h5 | h5
      · exact Or.inl h5
      · right
        simp only [List.length_cons] at h5 ⊢
        omega
  · rintro ⟨hstep, h1, h2, h3, h4, h5⟩
    refine ⟨?_, ?_, ?_, ?_, ?_⟩
    · intro x hx
      rcases List.mem_cons.mp hx with rfl | hx
      · exact hv
      · exact h1 x hx
    · have : isChain t (a :: v :: e) = (isStep t a v && isChain t (v :: e)) := rfl
      rw [this, Bool.and_eq_true]
      exact ⟨hstep, h2⟩
    · rw [List.getLast_cons (List.cons_ne_nil v e)]
      exact h3
    · intro x hx
      rw [List.dropLast_cons₂] at hx
      rcases List.mem_cons.mp hx with rfl | hx
      · exact ha
      · exact h4 x hx
    · rcases h5 with h5 | h5
      · exact Or.inl h5
      · right
        simp only [List.length_cons]
        omega

lemma admExt_not_pruned (t : Lookup) (roots pool : List String) (sd : Nat)
    (a : String) (d : Nat) (ext : List String) (h1 : 0 < sd ∧ sd ≤ d) :
    ¬ AdmExt t roots pool sd a d ext := by
  rintro ⟨-, -, -, -, h5⟩
  rcases h5 with h5 | h5 <;> omega

lemma admExt_notRootCons (t : Lookup) (roots pool : List String) (sd : Nat)
    (a v : String) (d : Nat) (e : List String) (hcr : a ∈ roots) :
    ¬ AdmExt t roots pool sd a d (v :: e) := by
  rintro ⟨-, -, -, h4, -⟩
  refine h4 a ?_ hcr
  rw [List.dropLast_cons₂]
  exact List.mem_cons_self a _

lemma admExt_not_nil_of_notroot (t : Lookup) (roots pool : List String)
    (sd : Nat) (a : String) (d : Nat) (hcr : a ∉ roots) :
    ¬ AdmExt t roots pool sd a d [] := fun h =>
  hcr ((admExt_nil t roots pool sd a d).mp h).1

lemma admExt_not_nostep (t : Lookup) (roots pool : List String) (sd : Nat)
    (a v : String) (d : Nat) (e : List String)
    (hstep : isStep t a v = false) :
    ¬ AdmExt t roots pool sd a d (v :: e) := by
  rintro ⟨-, h2, -, -, -⟩
  have h2' : (isStep t a v && isChain t (v :: e)) = true := h2
  rw [Bool.and_eq_true, hstep] at h2'
  exact absurd h2'.1 (by simp)

/-- The branch-sum of a search state is the sum of `⌊ROOT_SCORE / 2^k⌋` over
all its admitted simple continuations to a root. -/
lemma branchSum_eq_extSum (t : Lookup) (roots pool : List String) (sd : Nat)
    (hnd : pool.Nodup) (ht : tableNodup t) :
    ∀ (n : Nat) (p : List String) (a : String) (d : Nat),
      slack pool p ≤ n →
      branchSum t roots pool sd a d p = extSum t roots pool sd n a d p := by
  intro n
  induction n with
  | zero =>
    intro p a d hs
    rw [extSum_zero]
    by_cases h1 : 0 < sd ∧ sd ≤ d
    · rw [branchSum_pruned t roots pool sd a d p h1,
        if_neg (admExt_not_pruned t roots pool sd a d [] h1)]
    · cases hcr : roots.contains a with
      | true =>
        rw [branchSum_root t roots pool sd a d p h1 hcr, if_pos]
        exact (admExt_nil t roots pool sd a d).mpr
          ⟨by simpa using hcr, by omega⟩
      | false =>
        rw [if_neg (admExt_not_nil_of_notroot t roots pool sd a d
          (by simpa using hcr))]
        cases hl : lookupFn t a with
        | none => exact branchSum_fail t roots pool sd a d p h1 hcr hl
        | some vs =>
          rw [branchSum_expand t roots pool sd a d p vs h1 hcr hl]
          have hpool : pool.filter (fun x => !(p.contains x)) = [] := by
            have : slack pool p = 0 := by omega
            exact List.length_eq_zero.mp this
          have hempty : vs.filter (fun v => pool.contains v && !(p.contains v))
              = [] := by
            apply List.filter_eq_nil_iff.mpr
            intro v _
            intro hv
            rw [Bool.and_eq_true] at hv
            have hv1 : v ∈ pool := by simpa using hv.1
            have hv2 : v ∈ pool.filter (fun x => !(p.contains x)) :=
              List.mem_filter.mpr ⟨hv1, hv.2⟩
            rw [hpool] at hv2
            exact absurd hv2 (List.not_mem_nil v)
          rw [hempty]
          simp
  | succ n ih =>
    intro p a d hs
    rw [extSum_succ]
    by_cases h1 : 0 < sd ∧ sd ≤ d
    · rw [branchSum_pruned t roots pool sd a d p h1,
        if_neg (admExt_not_pruned t roots pool sd a d [] h1)]
      symm
      simp only [Nat.zero_add]
      apply List.sum_eq_zero
      intro x hx
      rw [List.mem_map] at hx
      obtain ⟨v, -, rfl⟩ := hx
      have hfil : ((extChoices pool (p ++ [v]) n).map (fun e => v :: e)).filter
          (fun e => decide (AdmExt t roots pool sd a d e)) = [] := by
        apply List.filter_eq_nil_iff.mpr
        intro q hq
        rw [List.mem_map] at hq
        obtain ⟨e, -, rfl⟩ := hq
        simpa using admExt_not_pruned t roots pool sd a d (v :: e) h1
      rw [hfil]
      simp
    · cases hcr : roots.contains a with
      | true =>
        rw [branchSum_root t roots pool sd a d p h1 hcr,
          if_pos ((admExt_nil t roots pool sd a d).mpr
            ⟨by simpa using hcr, by omega⟩)]
        symm
        have hzero : ((pool.filter (fun v => !(p.contains v))).map
            (fun v => ((((extChoices pool (p ++ [v]) n).map (fun e => v :: e)).filter
              (fun e => decide (AdmExt t roots pool sd a d e))).map
                (fun e => ROOT_SCORE / 2 ^ (d + e.length))).sum)).sum = 0 := by
          apply List.sum_eq_zero
          intro x hx
          rw [List.mem_map] at hx
          obtain ⟨v, -, rfl⟩ := hx
          have hfil : ((extChoices pool (p ++ [v]) n).map (fun e => v :: e)).filter
              (fun e => decide (AdmExt t roots pool sd a d e)) = [] := by
            apply List.filter_eq_nil_iff.mpr
            intro q hq
            rw [List.mem_map] at hq
            obtain ⟨e, -, rfl⟩ := hq
            simpa using admExt_notRootCons t roots pool sd a v d e
              (by simpa using hcr)
          rw [hfil]
          simp
        rw [hzero]
        simp
      | false =>
        have hanr : a ∉ roots := by simpa using hcr
        rw [if_neg (admExt_not_nil_of_notroot t roots pool sd a d hanr)]
        simp only [Nat.zero_add]
        cases hl : lookupFn t a with
        | none =>
          rw [branchSum_fail t roots pool sd a d p h1 hcr hl]
          symm
          apply List.sum_eq_zero
          intro x hx
          rw [List.mem_map] at hx
          obtain ⟨v, -, rfl⟩ := hx
          have hstep : isStep t a v = false := by
            simp [isStep, hl]
          have hfil : ((extChoices pool (p ++ [v]) n).map (fun e => v :: e)).filter
              (fun e => decide (AdmExt t roots pool sd a d e)) = [] := by
            apply List.filter_eq_nil_iff.mpr
            intro q hq
            rw [List.mem_map] at hq
            obtain ⟨e, -, rfl⟩ := hq
            simpa using admExt_not_nostep t roots pool sd a v d e hstep
          rw [hfil]
          simp
        | some vs =>
          rw [branchSum_expand t roots pool sd a d p vs h1 hcr hl]
          -- rewrite each inner sum to an `if` on the step relation
          have hinner : ((pool.filter (fun v => !(p.contains v))).map
              (fun v => ((((extChoices pool (p ++ [v]) n).map (fun e => v :: e)).filter
                (fun e => decide (AdmExt t roots pool sd a d e))).map
                  (fun e => ROOT_SCORE / 2 ^ (d + e.length))).sum)).sum
              = ((pool.filter (fun v => !(p.contains v))).map
                  (fun v => if isStep t a v then
                      branchSum t roots pool sd v (d + 1) (p ++ [v])
                    else 0)).sum := by
            congr 1
            apply List.map_congr_left
            intro v hv
            have hvp : v ∈ pool := (List.mem_filter.mp hv).1
            have hvnp : v ∉ p := by
              have := (List.mem_filter.mp hv).2
              simpa using this
            cases hstep : isStep t a v with
            | false =>
              have hfil : ((extChoices pool (p ++ [v]) n).map (fun e => v :: e)).filter
                  (fun e => decide (AdmExt t roots pool sd a d e)) = [] := by
                apply List.filter_eq_nil_iff.mpr
                intro q hq
                rw [List.mem_map] at hq
                obtain ⟨e, -, rfl⟩ := hq
                simpa using admExt_not_nostep t roots pool sd a v d e hstep
              rw [hfil]
              simp
            | true =>
              rw [List.filter_map, List.map_map]
              have hpred : (fun e => decide (AdmExt t roots pool sd a d e))
                    ∘ (fun e => v :: e)
                  = fun e => decide (AdmExt t roots pool sd v (d + 1) e) := by
                funext e
                simp only [Function.comp]
                rw [decide_eq_decide]
                constructor
                · intro h
                  exact ((admExt_cons t roots pool sd a v d e hanr hvp).mp h).2
                · intro h
                  exact (admExt_cons t roots pool sd a v d e hanr hvp).mpr
                    ⟨hstep, h⟩
              rw [hpred]
              have hfun : ((extChoices pool (p ++ [v]) n).filter
                    (fun e => decide (AdmExt t roots pool sd v (d + 1) e))).map
                  ((fun e => ROOT_SCORE / 2 ^ (d + e.length)) ∘ (fun e => v :: e))
                  = ((extChoices pool (p ++ [v]) n).filter
                      (fun e => decide (AdmExt t roots pool sd v (d + 1) e))).map
                    (fun e => ROOT_SCORE / 2 ^ ((d + 1) + e.length)) := by
                apply List.map_congr_left
                intro e _
                simp only [Function.comp, List.length_cons]
                have : d + (e.length + 1) = (d + 1) + e.length := by omega
                rw [this]
              rw [hfun, if_pos rfl]
              have hsl : slack pool (p ++ [v]) ≤ n := by
                have := slack_lt pool p v hvp hvnp
                omega
              rw [ih (p ++ [v]) v (d + 1) hsl]
              rfl
          rw [hinner, sum_if_filter]
          apply sum_reindex
          · exact List.Nodup.filter _ (lookupFn_nodup t a vs ht hl)
          · exact List.Nodup.filter _ (List.Nodup.filter _ hnd)
          · intro x
            constructor
            · intro hx
              have h1m := List.mem_filter.mp hx
              have h2m := h1m.2
              rw [Bool.and_eq_true] at h2m
              refine List.mem_filter.mpr ⟨List.mem_filter.mpr
                ⟨by simpa using h2m.1, h2m.2⟩, ?_⟩
              simp [isStep, hl]
              exact h1m.1
            · intro hx
              have h1m := List.mem_filter.mp hx
              have h2m := List.mem_filter.mp h1m.1
              have h3m : x ∈ vs := by
                have := h1m.2
                simp [isStep, hl] at this
                exact this
              refine List.mem_filter.mpr ⟨h3m, ?_⟩
              rw [Bool.and_eq_true]
              exact ⟨by simpa using h2m.1, h2m.2⟩

lemma extChoices_sound (pool : List String) :
    ∀ (n : Nat) (used : List String) (e : List String),
      e ∈ extChoices pool used n →
      e.Nodup ∧ (∀ x ∈ e, x ∈ pool ∧ x ∉ used) := by
  intro n
  induction n with
  | zero =>
    intro used e he
    have : e = [] := by simpa [extChoices] using he
    subst this
    exact ⟨List.nodup_nil, by simp⟩
  | succ n ih =>
    intro used e he
    rw [show extChoices pool used (n + 1)
        = [] :: (pool.filter (fun v => !(used.contains v))).flatMap
            (fun v => (extChoices pool (used ++ [v]) n).map (fun e => v :: e))
        from rfl] at he
    rcases List.mem_cons.mp he with rfl | he
    · exact ⟨List.nodup_nil, by simp⟩
    · rw [List.mem_flatMap] at he
      obtain ⟨v, hv, he⟩ := he
      rw [List.mem_map] at he
      obtain ⟨e', he', rfl⟩ := he
      have hvp : v ∈ pool := (List.mem_filter.mp hv).1
      have hvu : v ∉ used := by
        have := (List.mem_filter.mp hv).2
        simpa using this
      obtain ⟨hnod, hmem⟩ := ih (used ++ [v]) e' he'
      constructor
      · rw [List.nodup_cons]
        refine ⟨fun hc => ?_, hnod⟩
        have := (hmem v hc).2
        simp at this
      · intro x hx
        rcases List.mem_cons.mp hx with rfl | hx
        · exact ⟨hvp, hvu⟩
        · have := hmem x hx
          refine ⟨this.1, fun hc => this.2 ?_⟩
          simp [hc]

lemma extChoices_complete (pool : List String) :
    ∀ (n : Nat) (used : List String) (e : List String),
      e.Nodup → (∀ x ∈ e, x ∈ pool ∧ x ∉ used) → e.length ≤ n →
      e ∈ extChoices pool used n := by
  intro n
  induction n with
  | zero =>
    intro used e _ _ hlen
    have : e = [] := List.length_eq_zero.mp (by omega)
    subst this
    simp [extChoices]
  | succ n ih =>
    intro used e hnod hmem hlen
    rw [show extChoices pool used (n + 1)
        = [] :: (pool.filter (fun v => !(used.contains v))).flatMap
            (fun v => (extChoices pool (used ++ [v]) n).map (fun e => v :: e))
        from rfl]
    cases e with
    | nil => exact List.mem_cons_self _ _
    | cons v e' =>
      apply List.mem_cons_of_mem
      rw [List.mem_flatMap]
      refine ⟨v, List.mem_filter.mpr
        ⟨(hmem v (List.mem_cons_self v e')).1, by
          simpa using (hmem v (List.mem_cons_self v e')).2⟩, ?_⟩
      rw [List.mem_map]
      refine ⟨e', ih (used ++ [v]) e' (List.Nodup.of_cons hnod) ?_ ?_, rfl⟩
      · intro x hx
        have hx' := hmem x (List.mem_cons_of_mem v hx)
        refine ⟨hx'.1, ?_⟩
        intro hc
        rw [List.mem_append] at hc
        rcases hc with hc | hc
        · exact hx'.2 hc
        · have : x = v := by simpa using hc
          subst this
          exact (List.nodup_cons.mp hnod).1 hx
      · have : e'.length + 1 ≤ n + 1 := by simpa using hlen
        omega

lemma isRootPath_cons_iff (t : Lookup) (roots pool : List String) (sd : Nat)
    (tgt : String) (e : List String) (hnod : e.Nodup) (hte : tgt ∉ e) :
    IsRootPath t roots pool sd tgt (tgt :: e)
      ↔ AdmExt t roots pool sd tgt 0 e := by
  unfold IsRootPath AdmExt
  constructor
  · rintro ⟨-, -, h3, h4, ⟨r, hr1, hr2⟩, h6, h7⟩
    refine ⟨by simpa using h3, h4, ?_, h6, ?_⟩
    · rw [List.getLast?_eq_getLast (tgt :: e) (List.cons_ne_nil tgt e)] at hr1
      have : r = (tgt :: e).getLast (List.cons_ne_nil tgt e) := by
        injection hr1.symm
      rw [← this]
      exact hr2
    · simpa using h7
  · rintro ⟨h1, h2, h3, h4, h5⟩
    refine ⟨rfl, ?_, by simpa using h1, h2, ?_, h4, ?_⟩
    · rw [List.nodup_cons]
      exact ⟨hte, hnod⟩
    · exact ⟨(tgt :: e).getLast (List.cons_ne_nil tgt e),
        List.getLast?_eq_getLast (tgt :: e) (List.cons_ne_nil tgt e), h3⟩
    · simpa using h5

lemma pathScoreSum_eq_extSum (t : Lookup) (roots pool : List String)
    (sd : Nat) (tgt : String) :
    pathScoreSum t roots pool sd tgt
      = extSum t roots pool sd pool.length tgt 0 [tgt] := by
  unfold pathScoreSum rootPaths extSum
  rw [List.filter_map, List.map_map]
  have hpred : (extChoices pool [tgt] pool.length).filter
        ((fun q => decide (IsRootPath t roots pool sd tgt q))
          ∘ (fun ext => tgt :: ext))
      = (extChoices pool [tgt] pool.length).filter
          (fun e => decide (AdmExt t roots pool sd tgt 0 e)) := by
    apply List.filter_congr
    intro e he
    obtain ⟨hnod, hmem⟩ := extChoices_sound pool pool.length [tgt] e he
    have hte : tgt ∉ e := fun hc => by
      have := (hmem tgt hc).2
      simp at this
    simp only [Function.comp]
    rw [decide_eq_decide]
    exact isRootPath_cons_iff t roots pool sd tgt e hnod hte
  rw [hpred]
  congr 1
  apply List.map_congr_left
  intro e _
  simp only [Function.comp, List.length_cons]
  congr 2
  omega

/-- The slack of any path is at most the pool size. -/
lemma slack_le_length (pool p : List String) : slack pool p ≤ pool.length :=
  List.length_filter_le _ pool

/-- Score of a non-root address in the graph: the sum of the decayed
contributions of all its admitted simple root-reaching paths. -/
lemma score_nonroot (t : Lookup) (roots pool : List String) (sd : Nat)
    (tgt : String) (hnd : pool.Nodup) (ht : tableNodup t)
    (hm : tgt ∈ pool) (hnr : tgt ∉ roots) :
    msGet (calculateAddressScores t roots pool sd) tgt
      = some (pathScoreSum t roots pool sd tgt) := by
  rw [scores_char t roots pool sd hnd tgt, if_pos hm, if_neg hnr]
  rw [branchSum_eq_extSum t roots pool sd hnd ht pool.length [tgt] tgt 0
    (slack_le_length pool [tgt])]
  rw [← pathScoreSum_eq_extSum]

/-- Every admitted simple root-reaching path appears in the enumerated
`rootPaths` list. -/
lemma mem_rootPaths (t : Lookup) (roots pool : List String) (sd : Nat)
    (tgt : String) (q : List String)
    (hq : IsRootPath t roots pool sd tgt q) :
    q ∈ rootPaths t roots pool sd tgt := by
  unfold rootPaths
  apply List.mem_filter.mpr
  refine ⟨?_, by simpa using hq⟩
  obtain ⟨h1, h2, h3, -, -, -, -⟩ := hq
  cases q with
  | nil => simp at h1
  | cons y e =>
    have hy : y = tgt := by simpa using h1
    subst hy
    rw [List.mem_map]
    refine ⟨e, ?_, rfl⟩
    apply extChoices_complete
    · exact List.Nodup.of_cons h2
    · intro x hx
      refine ⟨h3 x (by simpa using hx), ?_⟩
      intro hc
      have hx' : x = y := by simpa using hc
      subst hx'
      exact (List.nodup_cons.mp h2).1 hx
    · have hsub : e.toFinset ⊆ pool.toFinset := by
        intro x hx
        rw [List.mem_toFinset] at hx ⊢
        exact h3 x (by simpa using hx)
      have h4 : e.toFinset.card = e.length :=
        List.toFinset_card_of_nodup (List.Nodup.of_cons h2)
      have h5 : pool.toFinset.card ≤ pool.length := List.toFinset_card_le pool
      have h6 := Finset.card_le_card hsub
      omega

lemma sum_pos_iff_exists (l : List String → Nat) (L : List (List String)) :
    0 < (L.map l).sum ↔ ∃ q ∈ L, 0 < l q := by
  constructor
  · intro h
    by_contra hc
    push_neg at hc
    have : (L.map l).sum = 0 := by
      apply List.sum_eq_zero
      intro x hx
      rw [List.mem_map] at hx
      obtain ⟨q, hq, rfl⟩ := hx
      have := hc q hq
      omega
    omega
  · rintro ⟨q, hq, hpos⟩
    have := List.single_le_sum (l := L.map l) (fun x _ => Nat.zero_le x)
      (l q) (List.mem_map.mpr ⟨q, hq, rfl⟩)
    exact lt_of_lt_of_le hpos this

lemma Extends.rfl (st : GState) : Extends st st :=
  ⟨⟨[], by simp⟩, ⟨[], by simp⟩, ⟨[], by simp⟩, ⟨[], by simp⟩⟩

lemma Extends.trans {s1 s2 s3 : GState} (h1 : Extends s1 s2)
    (h2 : Extends s2 s3) : Extends s1 s3 := by
  obtain ⟨⟨e1, he1⟩, ⟨v1, hv1⟩, ⟨w1, hw1⟩, ⟨f1, hf1⟩⟩ := h1
  obtain ⟨⟨e2, he2⟩, ⟨v2, hv2⟩, ⟨w2, hw2⟩, ⟨f2, hf2⟩⟩ := h2
  exact ⟨⟨e1 ++ e2, by simp [he2, he1]⟩, ⟨v1 ++ v2, by simp [hv2, hv1]⟩,
    ⟨w1 ++ w2, by simp [hw2, hw1]⟩, ⟨f1 ++ f2, by simp [hf2, hf1]⟩⟩

lemma fetchVouchGraph_visited_stop (t : Lookup) (roots : List String)
    (fuel : Nat) (addr : String) (st : GState)
    (h : st.visited.contains addr = true) :
    fetchVouchGraph t roots fuel addr st = st := by
  unfold fetchVouchGraph
  rw [if_pos h]

lemma fetchVouchGraph_depth_stop (t : Lookup) (roots : List String)
    (addr : String) (st : GState)
    (h : st.visited.contains addr = false) :
    fetchVouchGraph t roots 0 addr st = st := by
  unfold fetchVouchGraph
  rw [if_neg (by simpa using h)]

lemma fetchVouchGraph_fail_step (t : Lookup) (roots : List String)
    (fuel : Nat) (addr : String) (st : GState)
    (hnv : st.visited.contains addr = false)
    (hl : lookupFn t addr = none) :
    fetchVouchGraph t roots (fuel + 1) addr st
      = { st with visited := st.visited ++ [addr],
                  fetched := st.fetched ++ [addr],
                  warnings := st.warnings ++ [addr] } := by
  unfold fetchVouchGraph
  rw [if_neg (by simpa using hnv)]
  simp only [hl]

lemma fetchVouchGraph_expand_step (t : Lookup) (roots : List String)
    (fuel : Nat) (addr : String) (st : GState) (vouchers : List String)
    (hnv : st.visited.contains addr = false)
    (hl : lookupFn t addr = some vouchers) :
    fetchVouchGraph t roots (fuel + 1) addr st
      = processVouchers t roots fuel addr vouchers
          { st with visited := st.visited ++ [addr],
                    fetched := st.fetched ++ [addr] } := by
  unfold fetchVouchGraph processVouchers
  rw [if_neg (by simpa using hnv)]
  simp only [hl]

lemma processVouchers_nil (t : Lookup) (roots : List String) (fuel : Nat)
    (addr : String) (st : GState) :
    processVouchers t roots fuel addr [] st = st := rfl

lemma processVouchers_cons (t : Lookup) (roots : List String) (fuel : Nat)
    (addr v : String) (vs : List String) (st : GState) :
    processVouchers t roots fuel addr (v :: vs) st
      = processVouchers t roots fuel addr vs
          (let acc1 : GState := { st with edges := st.edges ++ [(v, addr)] }
           if roots.contains v then
             if acc1.visited.contains v then acc1
             else { acc1 with visited := acc1.visited ++ [v] }
           else fetchVouchGraph t roots fuel v acc1) := rfl

lemma processVouchers_extends_of (t : Lookup) (roots : List String)
    (fuel : Nat)
    (hf : ∀ (a : String) (s : GState), Extends s (fetchVouchGraph t roots fuel a s)) :
    ∀ (addr : String) (vs : List String) (st : GState),
      Extends st (processVouchers t roots fuel addr vs st) := by
  intro addr vs
  induction vs with
  | nil =>
    intro st
    rw [processVouchers_nil]
    exact Extends.rfl st
  | cons v vs ih =>
    intro st
    rw [processVouchers_cons]
    refine Extends.trans ?_ (ih _)
    have hedge : Extends st { st with edges := st.edges ++ [(v, addr)] } :=
      ⟨⟨[(v, addr)], by simp⟩, ⟨[], by simp⟩, ⟨[], by simp⟩, ⟨[], by simp⟩⟩
    simp only
    cases hr : roots.contains v with
    | true =>
      simp only [hr, if_true]
      cases hv : ({ st with edges := st.edges ++ [(v, addr)] } : GState).visited.contains v with
      | true => simpa [hv] using hedge
      | false =>
        simp only [hv, Bool.false_eq_true, if_false]
        exact Extends.trans hedge
          ⟨⟨[], by simp⟩, ⟨[v], by simp⟩, ⟨[], by simp⟩, ⟨[], by simp⟩⟩
    | false =>
      simp only [hr, Bool.false_eq_true, if_false]
      exact Extends.trans hedge (hf v _)

lemma fetchVouchGraph_extends (t : Lookup) (roots : List String) :
    ∀ (fuel : Nat) (addr : String) (st : GState),
      Extends st (fetchVouchGraph t roots fuel addr st) := by
  intro fuel
  induction fuel with
  | zero =>
    intro addr st
    cases hv : st.visited.contains addr with
    | true => rw [fetchVouchGraph_visited_stop t roots 0 addr st hv]; exact Extends.rfl st
    | false => rw [fetchVouchGraph_depth_stop t roots addr st hv]; exact Extends.rfl st
  | succ fuel ih =>
    intro addr st
    cases hv : st.visited.contains addr with
    | true =>
      rw [fetchVouchGraph_visited_stop t roots (fuel + 1) addr st hv]
      exact Extends.rfl st
    | false =>
      cases hl : lookupFn t addr with
      | none =>
        rw [fetchVouchGraph_fail_step t roots fuel addr st hv hl]
        exact ⟨⟨[], by simp⟩, ⟨[addr], by simp⟩, ⟨[addr], by simp⟩,
          ⟨[addr], by simp⟩⟩
      | some vouchers =>
        rw [fetchVouchGraph_expand_step t roots fuel addr st vouchers hv hl]
        refine Extends.trans ?_ (processVouchers_extends_of t roots fuel ih addr vouchers _)
        exact ⟨⟨[], by simp⟩, ⟨[addr], by simp⟩, ⟨[], by simp⟩, ⟨[addr], by simp⟩⟩

lemma processVouchers_inv_of (t : Lookup) (roots : List String) (fuel : Nat)
    (hf : ∀ (a : String) (s : GState), FetchInv s → FetchInv (fetchVouchGraph t roots fuel a s)) :
    ∀ (addr : String) (vs : List String) (st : GState),
      FetchInv st → FetchInv (processVouchers t roots fuel addr vs st) := by
  intro addr vs
  induction vs with
  | nil =>
    intro st h
    rw [processVouchers_nil]
    exact h
  | cons v vs ih =>
    intro st h
    rw [processVouchers_cons]
    apply ih
    simp only
    cases hr : roots.contains v with
    | true =>
      simp only [hr, if_true]
      cases hv : ({ st with edges := st.edges ++ [(v, addr)] } : GState).visited.contains v with
      | true => exact h
      | false =>
        simp only [hv, Bool.false_eq_true, if_false]
        exact ⟨h.1, fun x hx => List.mem_append_left _ (h.2 x hx)⟩
    | false =>
      simp only [hr, Bool.false_eq_true, if_false]
      exact hf v _ h

lemma fetchVouchGraph_inv (t : Lookup) (roots : List String) :
    ∀ (fuel : Nat) (addr : String) (st : GState),
      FetchInv st → FetchInv (fetchVouchGraph t roots fuel addr st) := by
  intro fuel
  induction fuel with
  | zero =>
    intro addr st h
    cases hv : st.visited.contains addr with
    | true => rw [fetchVouchGraph_visited_stop t roots 0 addr st hv]; exact h
    | false => rw [fetchVouchGraph_depth_stop t roots addr st hv]; exact h
  | succ fuel ih =>
    intro addr st h
    cases hv : st.visited.contains addr with
    | true =>
      rw [fetchVouchGraph_visited_stop t roots (fuel + 1) addr st hv]
      exact h
    | false =>
      have hnmem : addr ∉ st.visited := by simpa using hv
      have hnf : addr ∉ st.fetched := fun hc => hnmem (h.2 addr hc)
      have hinv1 : FetchInv { st with visited := st.visited ++ [addr], fetched := st.fetched ++ [addr] } := by
        constructor
        · simpa [List.nodup_append] using ⟨h.1, hnf⟩
        · intro x hx
          simp only at hx ⊢
          rw [List.mem_append] at hx ⊢
          rcases hx with hx | hx
          · exact Or.inl (h.2 x hx)
          · exact Or.inr hx
      cases hl : lookupFn t addr with
      | none =>
        rw [fetchVouchGraph_fail_step t roots fuel addr st hv hl]
        exact ⟨hinv1.1, hinv1.2⟩
      | some vouchers =>
        rw [fetchVouchGraph_expand_step t roots fuel addr st vouchers hv hl]
        exact processVouchers_inv_of t roots fuel ih addr vouchers _ hinv1

/-- Voucher-loop step with the intermediate state written out. -/
lemma processVouchers_cons' (t : Lookup) (roots : List String) (fuel : Nat)
    (addr v : String) (vs : List String) (st : GState) :
    processVouchers t roots fuel addr (v :: vs) st
      = processVouchers t roots fuel addr vs
          (if roots.contains v then
             (if st.visited.contains v then
                { st with edges := st.edges ++ [(v, addr)] }
              else
                { st with edges := st.edges ++ [(v, addr)],
                          visited := st.visited ++ [v] })
           else
             fetchVouchGraph t roots fuel v
               { st with edges := st.edges ++ [(v, addr)] }) := rfl

/-- Every voucher in the processed list contributes its edge: the edges
present before the loop, followed by one edge per voucher (in order), form a
sublist of the resulting edge list. -/
lemma processVouchers_edges_sublist (t : Lookup) (roots : List String)
    (fuel : Nat) (addr : String) :
    ∀ (vs : List String) (st : GState),
      List.Sublist (st.edges ++ vs.map (fun v => (v, addr)))
        ((processVouchers t roots fuel addr vs st).edges) := by
  intro vs
  induction vs with
  | nil =>
    intro st
    rw [processVouchers_nil]
    simp
  | cons v vs ih =>
    intro st
    rw [processVouchers_cons']
    simp only [List.map_cons]
    have hstep : ∃ st2 : GState,
        (if roots.contains v then
           (if st.visited.contains v then
              { st with edges := st.edges ++ [(v, addr)] }
            else
              { st with edges := st.edges ++ [(v, addr)], visited := st.visited ++ [v] })
         else
           fetchVouchGraph t roots fuel v { st with edges := st.edges ++ [(v, addr)] }) = st2
        ∧ ∃ ex, st2.edges = (st.edges ++ [(v, addr)]) ++ ex := by
      cases hr : roots.contains v with
      | true =>
        cases hvv : st.visited.contains v with
        | true =>
          exact ⟨{ st with edges := st.edges ++ [(v, addr)] }, by simp, [], by simp⟩
        | false =>
          exact ⟨{ st with edges := st.edges ++ [(v, addr)], visited := st.visited ++ [v] },
            by simp, [], by simp⟩
      | false =>
        obtain ⟨⟨ex, hex⟩, -, -, -⟩ := fetchVouchGraph_extends t roots fuel v
          { st with edges := st.edges ++ [(v, addr)] }
        exact ⟨fetchVouchGraph t roots fuel v { st with edges := st.edges ++ [(v, addr)] },
          by simp, ex, by rw [hex]⟩
    obtain ⟨st2, hst2, ex, hex⟩ := hstep
    rw [hst2]
    have h1 := ih st2
    have h2 : List.Sublist ((st.edges ++ [(v, addr)]) ++ vs.map (fun v => (v, addr)))
        (st2.edges ++ vs.map (fun v => (v, addr))) := by
      rw [hex]
      exact List.Sublist.append (List.sublist_append_left _ _) (List.Sublist.refl _)
    have h0 : st.edges ++ (v, addr) :: vs.map (fun v => (v, addr))
        = (st.edges ++ [(v, addr)]) ++ vs.map (fun v => (v, addr)) :=
      List.append_cons _ _ _
    rw [h0]
    exact List.Sublist.trans h2 h1

lemma rootPaths_eq_nil (t : Lookup) (roots pool : List String) (sd : Nat)
    (tgt : String) (h : ∀ q, ¬ IsRootPath t roots pool sd tgt q) :
    rootPaths t roots pool sd tgt = [] := by
  unfold rootPaths
  apply List.filter_eq_nil_iff.mpr
  intro q _ hdec
  exact h q (of_decide_eq_true hdec)

lemma fetchRoots_malformed (v : JVal) (h : rootsShapeOk v = false) :
    fetchRootAddresses (Except.ok v) = Except.ok [] := by
  cases v with
  | jarr elems =>
    cases elems with
    | nil => rfl
    | cons first rest =>
      cases first with
      | jarr l => simp [rootsShapeOk] at h
      | jstr s => rfl
      | jnum n => rfl
      | jother => rfl
  | jstr s => rfl
  | jnum n => rfl
  | jother => rfl

/-! ### The claims -/

/-- **C1** (path-contribution law): for every root set, address set, depth
bound and non-root target in the address set — assuming a duplicate-free
address set and duplicate-free voucher responses (the spec's external
data-quality assumption) — the score `computeScores` assigns the target is
exactly the sum of `⌊ROOT_SCORE / 2^k⌋` over all distinct admitted simple
paths of length `k` from the target backward to a root, with every node
drawn from the address set (`pathScoreSum`, built over the duplicate-free
enumeration `rootPaths`). -/
theorem c1_path_contribution (t : Lookup) (roots pool : List String)
    (sd : Nat) (tgt : String) (hnd : pool.Nodup) (ht : tableNodup t)
    (hm : tgt ∈ pool) (hnr : tgt ∉ roots) :
    msGet (calculateAddressScores t roots pool sd) tgt
      = some (pathScoreSum t roots pool sd tgt) :=
  score_nonroot t roots pool sd tgt hnd ht hm hnr

/-- Witness for C1: target `T` with two distinct simple paths to the root
`R` (lengths 1 and 2) scores `100000 + 50000 = 150000`. -/
theorem c1_path_contribution_witness :
    msGet (calculateAddressScores tDiamond ["R"] ["T", "B", "R"] 0) "T"
      = some (pathScoreSum tDiamond ["R"] ["T", "B", "R"] 0 "T")
    ∧ pathScoreSum tDiamond ["R"] ["T", "B", "R"] 0 "T" = 150000 :=
  ⟨c1_path_contribution tDiamond ["R"] ["T", "B", "R"] 0 "T"
    (by decide) (by decide) (by decide) (by decide), by decide⟩

/-- **C2** (scenario B): with `A` vouching for `B` and `B` vouching for `C`
and root set `{A}`, `buildGraph(C, 3)` collects exactly the edges
`(B, C), (A, B)` (the set `{(A,B), (B,C)}`) and visits `C, B, A` in that
order, and `computeScores({A}, {A,B,C}, 0)` yields 200000, 100000, 50000
for `A`, `B`, `C`. -/
theorem c2_scenario_chain :
    (fetchVouchGraph tChain ["A"] 3 "C" initGState).edges
      = [("B", "C"), ("A", "B")]
    ∧ (fetchVouchGraph tChain ["A"] 3 "C" initGState).visited = ["C", "B", "A"]
    ∧ msGet (calculateAddressScores tChain ["A"] ["A", "B", "C"] 0) "A"
      = some 200000
    ∧ msGet (calculateAddressScores tChain ["A"] ["A", "B", "C"] 0) "B"
      = some 100000
    ∧ msGet (calculateAddressScores tChain ["A"] ["A", "B", "C"] 0) "C"
      = some 50000 := by
  refine ⟨by decide, by decide, by decide, by decide, by decide⟩

/-- **C3**: the ScoreMap has an entry for exactly the addresses of the
address set; every root in the address set scores exactly `ROOT_SCORE`
(never more, whatever vouch paths exist); and (under the data-quality
assumption) every non-root address with no admitted root-reaching path
scores 0. -/
theorem c3_scoremap_shape (t : Lookup) (roots pool : List String) (sd : Nat)
    (hnd : pool.Nodup) :
    (∀ x, (msGet (calculateAddressScores t roots pool sd) x).isSome
        ↔ x ∈ pool)
    ∧ (∀ x, x ∈ pool → x ∈ roots →
        msGet (calculateAddressScores t roots pool sd) x = some ROOT_SCORE)
    ∧ (tableNodup t → ∀ x, x ∈ pool → x ∉ roots →
        (∀ q, ¬ IsRootPath t roots pool sd x q) →
        msGet (calculateAddressScores t roots pool sd) x = some 0) := by
  refine ⟨?_, ?_, ?_⟩
  · intro x
    rw [scores_char t roots pool sd hnd x]
    by_cases hp : x ∈ pool
    · rw [if_pos hp]
      by_cases hr : x ∈ roots
      · rw [if_pos hr]; simpa using hp
      · rw [if_neg hr]; simpa using hp
    · rw [if_neg hp]; simpa using hp
  · intro x hp hr
    rw [scores_char t roots pool sd hnd x, if_pos hp, if_pos hr]
  · intro ht x hp hr hnone
    rw [score_nonroot t roots pool sd x hnd ht hp hr]
    have h0 : pathScoreSum t roots pool sd x = 0 := by
      unfold pathScoreSum
      rw [rootPaths_eq_nil t roots pool sd x hnone]
      rfl
    rw [h0]

/-- Witness for C3: scenario-B data. -/
theorem c3_scoremap_shape_witness :
    (∀ x, (msGet (calculateAddressScores tChain ["A"] ["A", "B", "C"] 0) x).isSome
        ↔ x ∈ ["A", "B", "C"])
    ∧ (∀ x, x ∈ ["A", "B", "C"] → x ∈ ["A"] →
        msGet (calculateAddressScores tChain ["A"] ["A", "B", "C"] 0) x
          = some ROOT_SCORE)
    ∧ (tableNodup tChain → ∀ x, x ∈ ["A", "B", "C"] → x ∉ ["A"] →
        (∀ q, ¬ IsRootPath tChain ["A"] ["A", "B", "C"] 0 x q) →
        msGet (calculateAddressScores tChain ["A"] ["A", "B", "C"] 0) x
          = some 0) :=
  c3_scoremap_shape tChain ["A"] ["A", "B", "C"] 0 (by decide)

/-- **C4**: over the whole walk, `buildGraph` fetches the voucher set of
each address at most once: the fetch trace has no duplicates, for every
lookup table, root set, start address and `maxDepth ≥ 1`. -/
theorem c4_no_double_expansion (t : Lookup) (roots : List String)
    (maxDepth : Nat) (start : String) (hd : 1 ≤ maxDepth) :
    (fetchVouchGraph t roots maxDepth start initGState).fetched.Nodup :=
  (fetchVouchGraph_inv t roots maxDepth start initGState
    ⟨List.nodup_nil, fun x hx => absurd hx (List.not_mem_nil x)⟩).1

/-- Witness for C4. -/
theorem c4_no_double_expansion_witness :
    (fetchVouchGraph tChain ["A"] 3 "C" initGState).fetched.Nodup :=
  c4_no_double_expansion tChain ["A"] 3 "C" (by decide)

/-- **C5**: the `visited` set is global, so a rediscovered address is never
re-expanded — calling the walk on an already-visited address changes
nothing — while the voucher loop of any expansion still appends one edge
into the current address per voucher (visited or not): the prior edges
followed by one edge per voucher embed, in order, into the resulting edge
list. -/
theorem c5_rediscovery_semantics (t : Lookup) (roots : List String)
    (fuel : Nat) (addr : String) (st : GState) (cur : String)
    (vs : List String) (st0 : GState) :
    (st.visited.contains addr = true →
      fetchVouchGraph t roots fuel addr st = st)
    ∧ List.Sublist (st0.edges ++ vs.map (fun v => (v, cur)))
        ((processVouchers t roots fuel cur vs st0).edges) :=
  ⟨fetchVouchGraph_visited_stop t roots fuel addr st,
   processVouchers_edges_sublist t roots fuel cur vs st0⟩

/-- Witness for C5. -/
theorem c5_rediscovery_semantics_witness :
    fetchVouchGraph tChain ["A"] 3 "C" ⟨["C"], [], [], []⟩ = ⟨["C"], [], [], []⟩
    ∧ List.Sublist ((⟨[], [], [], []⟩ : GState).edges
        ++ ["B"].map (fun v => (v, "C")))
        ((processVouchers tChain ["A"] 2 "C" ["B"] ⟨[], [], [], []⟩).edges) :=
  ⟨(c5_rediscovery_semantics tChain ["A"] 3 "C" ⟨["C"], [], [], []⟩ "C" ["B"]
      ⟨[], [], [], []⟩).1 (by decide),
   (c5_rediscovery_semantics tChain ["A"] 3 "C" ⟨["C"], [], [], []⟩ "C" ["B"]
      ⟨[], [], [], []⟩).2⟩

/-- Counterexample to **C6** as stated.  Two concrete refutations of "a
simple path of length at most `scoreDepth` forces a positive score":
(a) `T → R` of length `1 = scoreDepth` is pruned before the root check, so
`T` scores 0; (b) an 18-hop chain inside the bound contributes
`⌊200000 / 2^18⌋ = 0`, so the far end scores 0 despite its admitted path. -/
theorem c6_counterexample :
    (IsRootPathLe tEdge ["R"] ["T", "R"] 1 "T" ["T", "R"]
      ∧ msGet (calculateAddressScores tEdge ["R"] ["T", "R"] 1) "T" = some 0)
    ∧ (IsRootPathLe tLong ["s"] poolLong 19 "a" pathLong
      ∧ msGet (calculateAddressScores tLong ["s"] poolLong 19) "a"
          = some 0) :=
  ⟨⟨by decide, by decide⟩, ⟨by decide, by decide⟩⟩

/-- **C6**, amended: for `scoreDepth > 0` and a non-root target of the
address set (with the data-quality hypotheses), the target's score is
positive exactly when some admitted simple path — one reaching a root at
depth *strictly below* `scoreDepth` — has a positive floored contribution
`⌊ROOT_SCORE / 2^k⌋ > 0`; and if no root is reachable by an admitted path
the score is exactly 0. -/
theorem c6_amended_reachability (t : Lookup) (roots pool : List String)
    (sd : Nat) (tgt : String) (hnd : pool.Nodup) (ht : tableNodup t)
    (hm : tgt ∈ pool) (hnr : tgt ∉ roots) (hsd : 0 < sd) :
    ∃ s, msGet (calculateAddressScores t roots pool sd) tgt = some s
      ∧ (0 < s ↔ ∃ q, IsRootPath t roots pool sd tgt q
          ∧ 0 < ROOT_SCORE / 2 ^ (q.length - 1))
      ∧ ((∀ q, ¬ IsRootPath t roots pool sd tgt q) → s = 0) := by
  refine ⟨pathScoreSum t roots pool sd tgt,
    score_nonroot t roots pool sd tgt hnd ht hm hnr, ?_, ?_⟩
  · unfold pathScoreSum
    rw [sum_pos_iff_exists]
    constructor
    · rintro ⟨q, hq, hpos⟩
      have hq' : IsRootPath t roots pool sd tgt q := by
        have := (List.mem_filter.mp hq).2
        exact of_decide_eq_true this
      exact ⟨q, hq', hpos⟩
    · rintro ⟨q, hq, hpos⟩
      exact ⟨q, mem_rootPaths t roots pool sd tgt q hq, hpos⟩
  · intro hnone
    unfold pathScoreSum
    rw [rootPaths_eq_nil t roots pool sd tgt hnone]
    rfl

/-- Witness for the amended C6: depth bound 5 admits both paths of the
two-path diamond. -/
theorem c6_amended_reachability_witness :
    ∃ s, msGet (calculateAddressScores tDiamond ["R"] ["T", "B", "R"] 5) "T"
        = some s
      ∧ (0 < s ↔ ∃ q, IsRootPath tDiamond ["R"] ["T", "B", "R"] 5 "T" q
          ∧ 0 < ROOT_SCORE / 2 ^ (q.length - 1))
      ∧ ((∀ q, ¬ IsRootPath tDiamond ["R"] ["T", "B", "R"] 5 "T" q) → s = 0) :=
  c6_amended_reachability tDiamond ["R"] ["T", "B", "R"] 5 "T"
    (by decide) (by decide) (by decide) (by decide) (by decide)

/-- **C7**: a voucher-lookup failure is non-fatal.  A failed fetch for an
unvisited address returns normally, changing the state only by marking the
address visited, recording the fetch, and logging one warning — no edges
are dropped or added for it (the subtree is pruned); and in general the
walk only ever appends to the edge list, so every edge collected before a
failure survives it. -/
theorem c7_lookup_failure_nonfatal (t : Lookup) (roots : List String)
    (fuel : Nat) (addr : String) (st : GState) (f2 : Nat) (a2 : String)
    (st2 : GState) :
    (lookupFn t addr = none → st.visited.contains addr = false →
      fetchVouchGraph t roots (fuel + 1) addr st
        = { st with visited := st.visited ++ [addr],
                    fetched := st.fetched ++ [addr],
                    warnings := st.warnings ++ [addr] })
    ∧ (∃ extra, (fetchVouchGraph t roots f2 a2 st2).edges
        = st2.edges ++ extra) :=
  ⟨fun hl hnv => fetchVouchGraph_fail_step t roots fuel addr st hnv hl,
   (fetchVouchGraph_extends t roots f2 a2 st2).1⟩

/-- Witness for C7: `B`'s lookup fails after `C` was expanded. -/
theorem c7_lookup_failure_nonfatal_witness :
    (fetchVouchGraph tFail [] 2 "B" initGState
      = { initGState with visited := initGState.visited ++ ["B"],
                          fetched := initGState.fetched ++ ["B"],
                          warnings := initGState.warnings ++ ["B"] })
    ∧ (∃ extra, (fetchVouchGraph tFail [] 3 "C" initGState).edges
        = initGState.edges ++ extra) :=
  ⟨(c7_lookup_failure_nonfatal tFail [] 1 "B" initGState 3 "C" initGState).1
      (by decide) (by decide),
   (c7_lookup_failure_nonfatal tFail [] 1 "B" initGState 3 "C" initGState).2⟩

/-- Counterexample to **C8** as stated: a response of the wrong shape does
*not* produce a lookup error — `fetchRootAddresses` logs and returns the
empty list, and the whole `vouch-graph` run proceeds with the degraded
(empty) root set instead of aborting. -/
theorem c8_counterexample :
    fetchRootAddresses (Except.ok JVal.jother) = Except.ok []
    ∧ (vouchGraphRun (Except.ok JVal.jother) tChain "C" 3 0).isOk = true := by
  exact ⟨rfl, by decide⟩

/-- **C8**, amended: a *transport* failure of the root provider propagates
and aborts the whole vouch-graph operation, but a *format* problem (a
response that is not an array whose first element is an array) is logged
and yields an empty root list, and the operation continues with that
degraded root set. -/
theorem c8_rootFailureSemantics (t : Lookup) (addr : String) (vd sd : Nat)
    (v : JVal) (e : Unit) :
    fetchRootAddresses (Except.error e) = Except.error e
    ∧ vouchGraphRun (Except.error e) t addr vd sd = Except.error e
    ∧ (rootsShapeOk v = false →
        fetchRootAddresses (Except.ok v) = Except.ok []
        ∧ ∃ res, vouchGraphRun (Except.ok v) t addr vd sd = Except.ok res) := by
  refine ⟨rfl, rfl, fun hv => ⟨fetchRoots_malformed v hv, ?_⟩⟩
  unfold vouchGraphRun
  rw [fetchRoots_malformed v hv]
  exact ⟨_, rfl⟩

/-- Witness for the amended C8. -/
theorem c8_rootFailureSemantics_witness :
    fetchRootAddresses (Except.error ()) = Except.error ()
    ∧ vouchGraphRun (Except.error ()) tChain "C" 3 0 = Except.error ()
    ∧ (rootsShapeOk JVal.jother = false →
        fetchRootAddresses (Except.ok JVal.jother) = Except.ok []
        ∧ ∃ res, vouchGraphRun (Except.ok JVal.jother) tChain "C" 3 0
            = Except.ok res) :=
  c8_rootFailureSemantics tChain "C" 3 0 JVal.jother ()

/-- **C9**: the walk never treats the *start* address as a terminal root:
even when the start address is in the root set, its voucher set is fetched
and an edge into it is appended for every voucher it has. -/
theorem c9_rootStartExpanded (t : Lookup) (roots : List String)
    (maxDepth : Nat) (start : String) (vouchers : List String)
    (hd : 1 ≤ maxDepth) (hroot : start ∈ roots)
    (hl : lookupFn t start = some vouchers) :
    start ∈ (fetchVouchGraph t roots maxDepth start initGState).fetched
    ∧ ∀ v ∈ vouchers,
        (v, start) ∈ (fetchVouchGraph t roots maxDepth start initGState).edges := by
  obtain ⟨fuel, rfl⟩ : ∃ f, maxDepth = f + 1 := ⟨maxDepth - 1, by omega⟩
  rw [fetchVouchGraph_expand_step t roots fuel start initGState vouchers rfl hl]
  constructor
  · obtain ⟨-, -, -, ⟨f, hf⟩⟩ := processVouchers_extends_of t roots fuel
      (fun a s => fetchVouchGraph_extends t roots fuel a s) start vouchers
      { initGState with visited := initGState.visited ++ [start],
                        fetched := initGState.fetched ++ [start] }
    rw [hf]
    simp [initGState]
  · intro v hv
    have hsub := processVouchers_edges_sublist t roots fuel start vouchers
      { initGState with visited := initGState.visited ++ [start],
                        fetched := initGState.fetched ++ [start] }
    apply hsub.subset
    rw [List.mem_append]
    exact Or.inr (List.mem_map.mpr ⟨v, hv, rfl⟩)

/-- Witness for C9: the root `A` is the start address and its voucher `B`
still produces the edge `(B, A)`. -/
theorem c9_rootStartExpanded_witness :
    "A" ∈ (fetchVouchGraph tRootStart ["A"] 2 "A" initGState).fetched
    ∧ ∀ v ∈ ["B"],
        (v, "A") ∈ (fetchVouchGraph tRootStart ["A"] 2 "A" initGState).edges :=
  c9_rootStartExpanded tRootStart ["A"] 2 "A" ["B"]
    (by decide) (by decide) (by decide)

/-- **C10**: the scoring engine terminates for every finite address set,
every lookup table and every depth bound, *including* `scoreDepth = 0`
(unlimited hops): the embedded loop, run on the explicitly computed fuel,
always empties its queues and returns a result (`isSome`), because each
enqueued state carries a strictly growing path inside the finite address
set. -/
theorem c10_scoring_terminates (t : Lookup) (roots pool : List String)
    (sd : Nat) :
    (calculateAddressScoresAux t roots pool sd).isSome = true :=
  scoresAux_isSome t roots pool sd
